import Mathlib

/-!
A shallow embedding of `gnes/indexer/key_only.py`: the four key-record
indexer backends (`DictKeyIndexer`, `ListKeyIndexer`, `ListNumpyKeyIndexer`,
`NumpyKeyIndexer`) together with the NumPy/Python behaviours they rely on
(negative-index lookup, slice assignment with broadcasting, float64 rounding
of integers stored in a float buffer), and proofs about the specified
properties of these backends.

Machine-number conventions of the embedding:
* Python ints are `ℤ`, Python floats are `ℚ` (a Python float is an IEEE-754
  binary64 value; storing or casting one through a float64 NumPy array is the
  identity, so `ℚ` with identity round-trips is faithful for the weights).
* Integers written into a float64 buffer are rounded to 53 significant bits
  (`fl` below); integers written into an int64 buffer are stored exactly and
  overflow outside `[-2^63, 2^63)`.
* The column width of `NumpyKeyIndexer` is fixed at the default
  `col_size = 3` used throughout the specification.
-/

set_option autoImplicit false

namespace Gnes

/-- The error outcomes the embedded code can surface: `keyNotFound` for a
dictionary miss (`KeyError`), `indexError` for an out-of-range positional
lookup, `lengthMismatch` for the checked add (`ValueError` on unequal batch
lengths), `divisionUndefined` for a zero denominator (`ZeroDivisionError`),
`broadcastError` for a NumPy slice assignment whose source shape does not
broadcast to the destination, `overflowError` for an int that does not fit
int64, `ambiguousTruth` for `not` applied to a multi-element array, and
`tooManyIndices` for 2-D indexing of a 1-D (empty) array. -/
inductive Err where
  | keyNotFound
  | indexError
  | lengthMismatch
  | divisionUndefined
  | broadcastError
  | overflowError
  | ambiguousTruth
  | tooManyIndices
deriving DecidableEq

/-- A batch element handed to `add`: a `(document_id, offset)` pair. -/
abbrev KeyPair := ℤ × ℤ

/-- A stored record as returned by `query`: `(document_id, offset, weight)`. -/
abbrev Record := ℤ × ℤ × ℚ

/-- Fuel-driven base-2 logarithm, written with structural recursion so that
it evaluates inside the kernel (`Nat.log2` itself is defined by well-founded
recursion and does not). -/
def natLog2Aux : ℕ → ℕ → ℕ
  | 0, _ => 0
  | fuel + 1, n => if 2 ≤ n then natLog2Aux fuel (n / 2) + 1 else 0

/-- Base-2 logarithm with 64 halving steps: equal to `Nat.log2` on the whole
range `n < 2 ^ 64` relevant to this development (see `natLog2_eq`). -/
def natLog2 (n : ℕ) : ℕ := natLog2Aux 64 n

/-- Round-half-even rounding of a natural number to 53 significant bits:
the value of the IEEE-754 float64 nearest to `n` (for the magnitudes below
`2 ^ 63` exercised in this development). Exact for `n ≤ 2 ^ 53`. -/
def flNat (n : ℕ) : ℕ :=
  if n ≤ 2 ^ 53 then n
  else
    let k := natLog2 n - 52
    let q := n / 2 ^ k
    let r := n % 2 ^ k
    let half := 2 ^ (k - 1)
    let q2 := if half < r ∨ (r = half ∧ q % 2 = 1) then q + 1 else q
    q2 * 2 ^ k

/-- Conversion of a Python int to the value of the nearest float64, as
performed by assigning integers into a float64 NumPy buffer. -/
def fl (v : ℤ) : ℤ :=
  if v < 0 then -(flNat v.natAbs : ℤ) else (flNat v.natAbs : ℤ)

/-- Python sequence / NumPy 1-axis indexing: a negative index counts from the
end; an index outside `[-len, len)` raises `IndexError`. -/
def pyIdx {α : Type} (xs : List α) (k : ℤ) : Except Err α :=
  if h : 0 ≤ k ∧ k < (xs.length : ℤ) then
    .ok (xs.get ⟨k.toNat, by omega⟩)
  else if h2 : k < 0 ∧ 0 ≤ k + (xs.length : ℤ) then
    .ok (xs.get ⟨(k + (xs.length : ℤ)).toNat, by omega⟩)
  else .error .indexError

/-- View of an `Except` value as a sum, to derive decidable equality. -/
def exceptToSum {ε α : Type} : Except ε α → ε ⊕ α
  | .error e => .inl e
  | .ok a => .inr a

instance {ε α : Type} [DecidableEq ε] [DecidableEq α] :
    DecidableEq (Except ε α) := fun a b =>
  decidable_of_iff (exceptToSum a = exceptToSum b)
    (by cases a <;> cases b <;> simp [exceptToSum])

/-! ### Generic `mapM` lemmas for `Except` -/

/-! ### `ListKeyIndexer` (`key_only.py`, lines 56-92): the Append-List Backend -/

/-- State of `ListKeyIndexer`: two parallel append-only lists plus the
append-only list of document ids and the chunk counter. -/
structure ListKeyIndexer where
  int2key : List KeyPair
  int2key_weight : List ℚ
  all_docs : List ℤ
  num_chunks : ℕ
deriving DecidableEq

/-- Modelled from the spec: `BaseKeyIndexer.__init__` is not under `src/`;
the spec's lifecycle section says an indexer "is created empty
(buffer/maps at zero or initial size)", so the running counters start at 0
and the sequences start empty. -/
def ListKeyIndexer.init : ListKeyIndexer :=
  { int2key := [], int2key_weight := [], all_docs := [], num_chunks := 0 }

/-- Method `ListKeyIndexer.add`: validates equal lengths (raising `ValueError`
before any mutation), extends both parallel lists, appends the batch's
document ids, bumps `_num_chunks`, and returns `len(self._int2key)`. -/
def ListKeyIndexer.add (s : ListKeyIndexer) (keys : List KeyPair)
    (weights : List ℚ) : ListKeyIndexer × Except Err ℕ :=
  if keys.length ≠ weights.length then (s, .error .lengthMismatch)
  else
    let s2 : ListKeyIndexer :=
      { int2key := s.int2key ++ keys
        int2key_weight := s.int2key_weight ++ weights
        all_docs := s.all_docs ++ keys.map Prod.fst
        num_chunks := s.num_chunks + keys.length }
    (s2, .ok s2.int2key.length)

/-- Method `ListKeyIndexer.query`: one scalar Python list lookup per key in each of
the two parallel lists, assembling `(document_id, offset, weight)`. -/
def ListKeyIndexer.query (s : ListKeyIndexer) (keys : List ℤ) :
    Except Err (List Record) :=
  keys.mapM (fun k => do
    let p ← pyIdx s.int2key k
    let w ← pyIdx s.int2key_weight k
    return (p.1, p.2, w))

/-- Property `ListKeyIndexer.num_doc`: `len(set(self._all_docs))`. -/
def ListKeyIndexer.num_doc (s : ListKeyIndexer) : ℕ := s.all_docs.dedup.length

/-- Property `ListKeyIndexer.num_chunks_avg`: `self._num_chunks / len(set(self._all_docs))`,
a `ZeroDivisionError` when no document has been seen. -/
def ListKeyIndexer.num_chunks_avg (s : ListKeyIndexer) : Except Err ℚ :=
  if s.num_doc = 0 then .error .divisionUndefined
  else .ok ((s.num_chunks : ℚ) / (s.num_doc : ℚ))

/-! ### `DictKeyIndexer` (`key_only.py`, lines 24-53): the Hash-Map Backend -/

/-- Python dict insertion (`m[k] = v`): overwrite in place if the key is
present, else append the new entry; insertion order is preserved. -/
def dictSet (m : List (ℤ × (ℤ × ℚ))) (k : ℤ) (v : ℤ × ℚ) :
    List (ℤ × (ℤ × ℚ)) :=
  if m.any (fun p => p.1 == k) then
    m.map (fun p => if p.1 == k then (k, v) else p)
  else m ++ [(k, v)]

/-- Python dict lookup (`m[k]` yields the value, or `None` here for a miss). -/
def dictFind (m : List (ℤ × (ℤ × ℚ))) (k : ℤ) : Option (ℤ × ℚ) :=
  (m.find? (fun p => p.1 == k)).map Prod.snd

/-- State of `DictKeyIndexer`: the key-info map plus the counters from the
base class. -/
structure DictKeyIndexer where
  key_info : List (ℤ × (ℤ × ℚ))
  num_doc : ℕ
  num_chunks : ℕ
deriving DecidableEq

/-- Modelled from the spec: counters of the base class start at zero
(the indexer "is created empty"). -/
def DictKeyIndexer.init : DictKeyIndexer :=
  { key_info := [], num_doc := 0, num_chunks := 0 }

/-- Method `DictKeyIndexer.add`: `for (k, o), w in zip(keys, weights)` overwrites
`self._key_info[k] = o, w` (so an over-long `keys` batch is silently
truncated by `zip`), then `update_counter` sets `_num_doc` to the map size
and advances `_num_chunks` by the full `len(keys)`; returns the map size. -/
def DictKeyIndexer.add (s : DictKeyIndexer) (keys : List KeyPair)
    (weights : List ℚ) : DictKeyIndexer × Except Err ℕ :=
  let m := (keys.zip weights).foldl
    (fun m kw => dictSet m kw.1.1 (kw.1.2, kw.2)) s.key_info
  let s2 : DictKeyIndexer :=
    { key_info := m, num_doc := m.length, num_chunks := s.num_chunks + keys.length }
  (s2, .ok m.length)

/-- Method `DictKeyIndexer.query`: `(k, *self._key_info[k])` per key; a missing key
raises `KeyError`. -/
def DictKeyIndexer.query (s : DictKeyIndexer) (keys : List ℤ) :
    Except Err (List Record) :=
  keys.mapM (fun k =>
    match dictFind s.key_info k with
    | some ow => .ok (k, ow.1, ow.2)
    | none => .error .keyNotFound)

/-- Property `DictKeyIndexer.num_chunks_avg`: the source divides `self._num_doc` by
`len(self._key_info)` (not `_num_chunks` by `_num_doc`). -/
def DictKeyIndexer.num_chunks_avg (s : DictKeyIndexer) : Except Err ℚ :=
  if s.key_info.length = 0 then .error .divisionUndefined
  else .ok ((s.num_doc : ℚ) / (s.key_info.length : ℚ))

/-! ### `NumpyKeyIndexer` (`key_only.py`, lines 136-186): the Growable
Columnar Buffer Backend

The buffer `self._int2key_info` is a float64 `np.zeros([buffer_size, 3])`.
Only integral values are ever stored in the two key columns (zero fill and
float64-rounded integers), so a row is modelled as `(ℤ, ℤ, ℚ)` holding the
exact values of the stored floats; `astype(int)` on query is then the
identity on the first two columns and `astype(float)` the identity on the
weight column. -/

/-- State of `NumpyKeyIndexer`. `int2key_info` is the buffer (one entry per
allocated row), the remaining fields mirror the Python attributes. -/
structure NumpyKeyIndexer where
  int2key_info : List Record
  buffer_size : ℕ
  size : ℕ
  max_size : ℕ
  all_docs : List ℤ
  num_chunks : ℕ
deriving DecidableEq

/-- Constructor `NumpyKeyIndexer.__init__(buffer_size, col_size=3)`: allocates
`np.zeros([buffer_size, 3])` but then sets `self._buffer_size = 10000`
(a literal in the source, ignoring the constructor argument) and
`self._max_size = self._buffer_size`. Counters start at zero (modelled from
the spec for the base class, as in `ListKeyIndexer.init`). -/
def NumpyKeyIndexer.init (bufferSize : ℕ) : NumpyKeyIndexer :=
  { int2key_info := List.replicate bufferSize (0, 0, 0)
    buffer_size := 10000
    size := 0
    max_size := 10000
    all_docs := []
    num_chunks := 0 }

/-- Number of rows of the clipped NumPy slice `a[s : s + l]` of an array
with `r` rows. -/
def sliceLen (s l r : ℕ) : ℕ := min (s + l) r - min s r

/-- Assignment `a[start : start + c, 0 : 2] = np.array(keys)`: replace the doc-id and
offset columns of the clipped destination rows with the float64-rounded key
values, keeping each row's weight column.  A single source row (`len(keys)
= 1`) is broadcast over the destination rows. -/
def writeKeyCols (data : List Record) (start c : ℕ) (keys : List KeyPair) :
    List Record :=
  let src := if keys.length = 1 then List.replicate c (keys.headD (0, 0)) else keys
  let block := List.zipWith
    (fun (k : KeyPair) (row : Record) => (fl k.1, fl k.2, row.2.2))
    src ((data.drop start).take c)
  data.take start ++ block ++ data.drop (start + c)

/-- Assignment `a[start : start + c, 2] = np.array(weights)`: replace the weight column
of the clipped destination rows, keeping the key columns; a single source
weight is broadcast. -/
def writeWeightCol (data : List Record) (start c : ℕ) (weights : List ℚ) :
    List Record :=
  let src := if weights.length = 1 then List.replicate c (weights.headD 0) else weights
  let block := List.zipWith
    (fun (w : ℚ) (row : Record) => (row.1, row.2.1, w))
    src ((data.drop start).take c)
  data.take start ++ block ++ data.drop (start + c)

/-- The growth block inside `NumpyKeyIndexer.add`: when
`self._size + l > self._max_size`, concatenate `max(l, self._buffer_size)`
zero rows onto the buffer and advance `self._max_size` by that amount. -/
def NumpyKeyIndexer.grow (s : NumpyKeyIndexer) (l : ℕ) : NumpyKeyIndexer :=
  if s.size + l > s.max_size then
    { s with
        int2key_info :=
          s.int2key_info ++ List.replicate (max l s.buffer_size) ((0 : ℤ), (0 : ℤ), (0 : ℚ))
        max_size := s.max_size + max l s.buffer_size }
  else s

/-- Method `NumpyKeyIndexer.add`: grows the buffer by `max(l, self._buffer_size)`
zero rows when `self._size + l > self._max_size`, then bulk-assigns the key
columns and the weight column of rows `size : size + l`, advances `_size`,
updates the counters and returns the new `_size`.

Each bulk assignment raises a broadcast `ValueError` when the source shape
does not broadcast onto the (clipped) destination slice: `np.array(keys)`
has shape `(l, 2)` for `l ≥ 1` — compatible with `c` destination rows iff
`l = c` or `l = 1` — and shape `(0,)` for an empty batch, which never
broadcasts onto the 2-column destination; `np.array(weights)` has shape
`(m,)`, compatible iff `m = c` or `m = 1`.  A raise leaves the mutations
already performed (growth, key-column write) in place and skips the rest,
exactly as the Python code would. -/
def NumpyKeyIndexer.add (s : NumpyKeyIndexer) (keys : List KeyPair)
    (weights : List ℚ) : NumpyKeyIndexer × Except Err ℕ :=
  let l := keys.length
  let s1 := s.grow l
  let c := sliceLen s1.size l s1.int2key_info.length
  if 0 < l ∧ (l = c ∨ l = 1) then
    let d1 := writeKeyCols s1.int2key_info s1.size c keys
    if weights.length = c ∨ weights.length = 1 then
      let s2 : NumpyKeyIndexer :=
        { s1 with
            int2key_info := writeWeightCol d1 s1.size c weights
            size := s1.size + l
            all_docs := s1.all_docs ++ keys.map Prod.fst
            num_chunks := s1.num_chunks + l }
      (s2, .ok s2.size)
    else ({ s1 with int2key_info := d1 }, .error .broadcastError)
  else (s1, .error .broadcastError)

/-- Method `NumpyKeyIndexer.query`: one vectorized gather of the key columns and
one of the weight column over the whole allocated buffer (bounds are the
allocated rows, not `_size`), zipped into triples. -/
def NumpyKeyIndexer.query (s : NumpyKeyIndexer) (keys : List ℤ) :
    Except Err (List Record) := do
  let ko ← keys.mapM (fun k => (pyIdx s.int2key_info k).map (fun row => (row.1, row.2.1)))
  let ws ← keys.mapM (fun k => (pyIdx s.int2key_info k).map (fun row => row.2.2))
  return List.zipWith (fun (p : KeyPair) (w : ℚ) => (p.1, p.2, w)) ko ws

/-- Property `NumpyKeyIndexer.num_doc`: `len(set(self._all_docs))`. -/
def NumpyKeyIndexer.num_doc (s : NumpyKeyIndexer) : ℕ := s.all_docs.dedup.length

/-- Property `NumpyKeyIndexer.num_chunks_avg`: `self._num_chunks / len(set(self._all_docs))`. -/
def NumpyKeyIndexer.num_chunks_avg (s : NumpyKeyIndexer) : Except Err ℚ :=
  if s.num_doc = 0 then .error .divisionUndefined
  else .ok ((s.num_chunks : ℚ) / (s.num_doc : ℚ))

/-- Property `NumpyKeyIndexer.capacity`: `self._max_size`. -/
def NumpyKeyIndexer.capacity (s : NumpyKeyIndexer) : ℕ := s.max_size

/-! ### `ListNumpyKeyIndexer` (`key_only.py`, lines 106-133): the
Lazily-Cached Columnar Backend

The cached key buffer is `np.array(self._int2key, int)` — an **int64**
array (shape `(n, 2)` when `n ≥ 1` but shape `(0,)` when the list is
empty), raising `OverflowError` if an entry does not fit int64.  The weight
cache is a float64 array. -/

/-- An integer outside the int64 range `[-2^63, 2^63)`. -/
def outOfInt64 (v : ℤ) : Bool := decide (v < -(2 ^ 63 : ℤ) ∨ (2 ^ 63 : ℤ) ≤ v)

/-- State of `ListNumpyKeyIndexer`: the inherited `ListKeyIndexer` state
plus the dirty flag and the two optional cached buffers. -/
structure ListNumpyKeyIndexer where
  base : ListKeyIndexer
  data_updated : Bool
  np_int2key : Option (List KeyPair)
  np_int2key_weight : Option (List ℚ)
deriving DecidableEq

/-- Constructor `ListNumpyKeyIndexer.__init__`: dirty flag clear, no caches built. -/
def ListNumpyKeyIndexer.init : ListNumpyKeyIndexer :=
  { base := ListKeyIndexer.init
    data_updated := false
    np_int2key := none
    np_int2key_weight := none }

/-- The guard of `_build_np_buffer`:
`self._data_updated or not self._np_int2key or not self._np_int2key_weight`.
Python evaluates the disjuncts left to right: a set dirty flag
short-circuits to rebuild; otherwise `not` on the cached key array yields
`True` when the cache is `None` or an empty array, and raises `ValueError`
("truth value of an array ... is ambiguous") on a multi-element array
(a cached `(n, 2)` buffer with `n ≥ 1` has `2n ≥ 2` elements), so the
weight-array disjunct is never reached. -/
def ListNumpyKeyIndexer.rebuildCond (s : ListNumpyKeyIndexer) :
    Except Err Bool :=
  if s.data_updated then .ok true
  else
    match s.np_int2key with
    | none => .ok true
    | some [] => .ok true
    | some (_ :: _) => .error .ambiguousTruth

/-- Method `_build_np_buffer`: when the guard holds, re-materialize both caches
from the append-only lists (`OverflowError` if some key entry does not fit
int64, in which case neither cache is replaced).  The dirty flag is *not*
cleared anywhere. -/
def ListNumpyKeyIndexer.buildNpBuffer (s : ListNumpyKeyIndexer) :
    ListNumpyKeyIndexer × Option Err :=
  match s.rebuildCond with
  | .error e => (s, some e)
  | .ok false => (s, none)
  | .ok true =>
      if s.base.int2key.any (fun p => outOfInt64 p.1 || outOfInt64 p.2) then
        (s, some .overflowError)
      else
        ({ s with
            np_int2key := some s.base.int2key
            np_int2key_weight := some s.base.int2key_weight }, none)

/-- Method `ListNumpyKeyIndexer.add`: sets the dirty flag (before the inherited
add runs, so the flag is set even when the length check raises), then
delegates to `ListKeyIndexer.add`. -/
def ListNumpyKeyIndexer.add (s : ListNumpyKeyIndexer) (keys : List KeyPair)
    (weights : List ℚ) : ListNumpyKeyIndexer × Except Err ℕ :=
  let s1 := { s with data_updated := true }
  let br := s1.base.add keys weights
  ({ s1 with base := br.1 }, br.2)

/-- The gather `self._np_int2key[keys, 0:2]`: on the degenerate shape-`(0,)`
cache built from an empty list, 2-axis indexing raises `IndexError: too many
indices` whatever the keys; otherwise it is a bounds-checked row gather
(exact, as the cache is an int64 array). -/
def gatherPairs (kbuf : List KeyPair) (keys : List ℤ) :
    Except Err (List KeyPair) :=
  match kbuf with
  | [] => .error .tooManyIndices
  | _ :: _ => keys.mapM (fun k => pyIdx kbuf k)

/-- Method `ListNumpyKeyIndexer.query`: rebuild the caches if needed, then gather
the key rows and the weights and zip them into triples.  The returned state
records the cache mutation performed by `_build_np_buffer`. -/
def ListNumpyKeyIndexer.query (s : ListNumpyKeyIndexer) (keys : List ℤ) :
    ListNumpyKeyIndexer × Except Err (List Record) :=
  match s.buildNpBuffer with
  | (s1, some e) => (s1, .error e)
  | (s1, none) =>
      match s1.np_int2key, s1.np_int2key_weight with
      | some kbuf, some wbuf =>
          (s1, do
            let ko ← gatherPairs kbuf keys
            let ws ← keys.mapM (fun k => pyIdx wbuf k)
            return List.zipWith (fun (p : KeyPair) (w : ℚ) => (p.1, p.2, w)) ko ws)
      | _, _ => (s1, .error .indexError)

/-- Property `ListNumpyKeyIndexer.num_doc` is inherited from `ListKeyIndexer`. -/
def ListNumpyKeyIndexer.num_doc (s : ListNumpyKeyIndexer) : ℕ := s.base.num_doc

/-- Property `ListNumpyKeyIndexer.num_chunks_avg` is inherited from `ListKeyIndexer`. -/
def ListNumpyKeyIndexer.num_chunks_avg (s : ListNumpyKeyIndexer) : Except Err ℚ :=
  s.base.num_chunks_avg

/-! ### Batch sequences and reachable states -/

/-- One `add` batch: the `(document_id, offset)` pairs and their weights. -/
abbrev Batch := List KeyPair × List ℚ

/-- Batches whose two halves have matching lengths (the caller contract). -/
def ValidBatches (bs : List Batch) : Prop := ∀ b ∈ bs, b.1.length = b.2.length

/-- Every document id and offset of the batch bounded by `m` in magnitude. -/
def BatchBounded (m : ℕ) (b : Batch) : Prop :=
  ∀ k ∈ b.1, k.1.natAbs ≤ m ∧ k.2.natAbs ≤ m

/-- All batches of the sequence bounded by `m` in magnitude. -/
def BoundedBatches (m : ℕ) (bs : List Batch) : Prop := ∀ b ∈ bs, BatchBounded m b

/-- Total number of records across a batch sequence. -/
def totalLen (bs : List Batch) : ℕ := (bs.map (fun b => b.1.length)).sum

/-- All `(document_id, offset)` pairs of a batch sequence, in order. -/
def flatKeys (bs : List Batch) : List KeyPair := (bs.map (fun b => b.1)).flatten

/-- All weights of a batch sequence, in order. -/
def flatWeights (bs : List Batch) : List ℚ := (bs.map (fun b => b.2)).flatten

/-- The integer key list `[a, a+1, ..., a+l-1]` handed to `query`. -/
def intRange (a l : ℕ) : List ℤ := (List.range' a l).map (fun i : ℕ => (i : ℤ))

def ListKeyIndexer.addB (s : ListKeyIndexer) (b : Batch) : ListKeyIndexer :=
  (s.add b.1 b.2).1

/-- The `ListKeyIndexer` state after a sequence of `add` calls from `s`. -/
def applyListFrom (s : ListKeyIndexer) (bs : List Batch) : ListKeyIndexer :=
  bs.foldl ListKeyIndexer.addB s

/-- The `ListKeyIndexer` state after a sequence of `add` calls on a fresh
indexer. -/
def applyList (bs : List Batch) : ListKeyIndexer :=
  applyListFrom ListKeyIndexer.init bs

def DictKeyIndexer.addB (s : DictKeyIndexer) (b : Batch) : DictKeyIndexer :=
  (s.add b.1 b.2).1

/-- The `DictKeyIndexer` state after a sequence of `add` calls from `s`. -/
def applyDictFrom (s : DictKeyIndexer) (bs : List Batch) : DictKeyIndexer :=
  bs.foldl DictKeyIndexer.addB s

/-- The `DictKeyIndexer` state after a sequence of `add` calls on a fresh
indexer. -/
def applyDict (bs : List Batch) : DictKeyIndexer :=
  applyDictFrom DictKeyIndexer.init bs

def NumpyKeyIndexer.addB (s : NumpyKeyIndexer) (b : Batch) : NumpyKeyIndexer :=
  (s.add b.1 b.2).1

/-- The `NumpyKeyIndexer` state after a sequence of `add` calls from `s`. -/
def applyNumpyFrom (s : NumpyKeyIndexer) (bs : List Batch) : NumpyKeyIndexer :=
  bs.foldl NumpyKeyIndexer.addB s

/-- The `NumpyKeyIndexer` state after a sequence of `add` calls on a
default-constructed indexer (`buffer_size = 10000`). -/
def applyNumpy (bs : List Batch) : NumpyKeyIndexer :=
  applyNumpyFrom (NumpyKeyIndexer.init 10000) bs

def ListNumpyKeyIndexer.addB (s : ListNumpyKeyIndexer) (b : Batch) :
    ListNumpyKeyIndexer :=
  (s.add b.1 b.2).1

/-- The `ListNumpyKeyIndexer` state after a sequence of `add` calls from `s`. -/
def applyListNumpyFrom (s : ListNumpyKeyIndexer) (bs : List Batch) :
    ListNumpyKeyIndexer :=
  bs.foldl ListNumpyKeyIndexer.addB s

/-- The `ListNumpyKeyIndexer` state after a sequence of `add` calls on a
fresh indexer. -/
def applyListNumpy (bs : List Batch) : ListNumpyKeyIndexer :=
  applyListNumpyFrom ListNumpyKeyIndexer.init bs

/-- Returns `true` on `Except.ok`. -/
def exceptIsOk {ε α : Type} : Except ε α → Bool
  | .ok _ => true
  | .error _ => false

/-- Well-formedness of a `ListKeyIndexer` state, maintained by every `add`:
the parallel lists stay in lock-step, `_num_chunks` counts the stored
records, and `_all_docs` is the first projection of the stored keys. -/
structure LWF (ls : ListKeyIndexer) : Prop where
  wlen_eq : ls.int2key_weight.length = ls.int2key.length
  chunks_eq : ls.num_chunks = ls.int2key.length
  docs_eq : ls.all_docs = ls.int2key.map Prod.fst

/-- Simulation invariant between the Append-List state and the Growable
Columnar Buffer state produced by the same batch sequence: the buffer's
allocated rows track `_max_size`, the occupied prefix holds the
float64-rounded records in order, the reserved rows are zero-valued, and
the statistics fields agree. -/
structure NRel (ls : ListKeyIndexer) (ns : NumpyKeyIndexer) : Prop where
  buf_eq : ns.buffer_size = 10000
  rows_eq : ns.int2key_info.length = ns.max_size
  size_le : ns.size ≤ ns.max_size
  size_eq : ns.size = ls.int2key.length
  wlen_eq : ls.int2key_weight.length = ls.int2key.length
  docs_eq : ns.all_docs = ls.all_docs
  chunks_eq : ns.num_chunks = ls.num_chunks
  stored : ∀ i : ℕ, i < ns.size →
    ns.int2key_info[i]? =
      (ls.int2key[i]?.bind fun k =>
        ls.int2key_weight[i]?.map fun w => (fl k.1, fl k.2, w))
  zeros : ∀ i : ℕ, ns.size ≤ i → i < ns.int2key_info.length →
    ns.int2key_info[i]? = some (0, 0, 0)

/-! ## Theorems

### Basic lemmas on the modelling primitives -/

theorem natLog2Aux_eq (fuel : ℕ) : ∀ n : ℕ, n < 2 ^ fuel → natLog2Aux fuel n = Nat.log2 n := by
  induction fuel with
  | zero =>
      intro n hn
      have hn0 : n = 0 := by simpa using hn
      rw [hn0, natLog2Aux, Nat.log2]
      norm_num
  | succ fuel ih =>
      intro n hn
      rw [natLog2Aux, Nat.log2]
      by_cases h2 : 2 ≤ n
      · rw [if_pos h2, if_pos h2, ih (n / 2) (by
          rw [pow_succ] at hn
          omega)]
      · rw [if_neg h2, if_neg h2]

theorem natLog2_eq (n : ℕ) (h : n < 2 ^ 64) : natLog2 n = Nat.log2 n :=
  natLog2Aux_eq 64 n h

theorem flNat_eq_of_le {n : ℕ} (h : n ≤ 2 ^ 53) : flNat n = n := by
  unfold flNat
  rw [if_pos h]

theorem fl_eq_of_le {v : ℤ} (h : v.natAbs ≤ 2 ^ 53) : fl v = v := by
  unfold fl
  rw [flNat_eq_of_le h]
  rcases le_or_lt 0 v with hv | hv
  · rw [if_neg (not_lt.mpr hv)]
    omega
  · rw [if_pos hv]
    omega

/-- Rounding: `flNat` alters `2 ^ 53 + 1` (rounds it down to `2 ^ 53`). -/
theorem flNat_pow53_succ : flNat (2 ^ 53 + 1) = 2 ^ 53 := by
  decide

theorem pyIdx_nat_lt {α : Type} (xs : List α) (k : ℕ) (h : k < xs.length) :
    pyIdx xs (k : ℤ) = .ok (xs.get ⟨k, h⟩) := by
  unfold pyIdx
  rw [dif_pos ⟨by omega, by omega⟩]
  congr 1

theorem pyIdx_nat_ge {α : Type} (xs : List α) (k : ℕ) (h : xs.length ≤ k) :
    pyIdx xs (k : ℤ) = .error .indexError := by
  unfold pyIdx
  rw [dif_neg (by omega), dif_neg (by omega)]

/-- Lookup `pyIdx` errors exactly outside the container range `[-len, len)`. -/
theorem pyIdx_error_iff {α : Type} (xs : List α) (k : ℤ) :
    (∃ e, pyIdx xs k = .error e) ↔ (k < -(xs.length : ℤ) ∨ (xs.length : ℤ) ≤ k) := by
  unfold pyIdx
  by_cases h : 0 ≤ k ∧ k < (xs.length : ℤ)
  · rw [dif_pos h]
    constructor
    · rintro ⟨e, he⟩; exact absurd he (by simp)
    · intro hor; omega
  · rw [dif_neg h]
    by_cases h2 : k < 0 ∧ 0 ≤ k + (xs.length : ℤ)
    · rw [dif_pos h2]
      constructor
      · rintro ⟨e, he⟩; exact absurd he (by simp)
      · intro hor; omega
    · rw [dif_neg h2]
      constructor
      · intro _; omega
      · intro _; exact ⟨.indexError, rfl⟩

theorem mapM_ok_of_forall {α β : Type} (f : α → Except Err β) (g : α → β) :
    ∀ xs : List α, (∀ x ∈ xs, f x = .ok (g x)) → xs.mapM f = .ok (xs.map g) := by
  intro xs
  induction xs with
  | nil => intro _; rfl
  | cons x xs ih =>
      intro h
      rw [List.mapM_cons, h x (List.mem_cons_self x xs),
        ih (fun y hy => h y (List.mem_cons_of_mem x hy))]
      rfl

theorem mapM_error_of_mem {α β : Type} (f : α → Except Err β) (e : Err) :
    ∀ xs : List α, (∀ x ∈ xs, f x = .error e ∨ ∃ b, f x = .ok b) →
      (∃ x ∈ xs, f x = .error e) → xs.mapM f = .error e := by
  intro xs
  induction xs with
  | nil => rintro _ ⟨x, hx, _⟩; exact absurd hx (List.not_mem_nil x)
  | cons x xs ih =>
      rintro hall ⟨y, hy, hye⟩
      rw [List.mapM_cons]
      rcases hall x (List.mem_cons_self x xs) with hx | ⟨b, hb⟩
      · rw [hx]; rfl
      · rw [hb]
        have hmem : y ∈ xs := by
          rcases List.mem_cons.mp hy with h | h
          · subst h; rw [hb] at hye; exact absurd hye (by simp)
          · exact h
        rw [ih (fun z hz => hall z (List.mem_cons_of_mem x hz)) ⟨y, hmem, hye⟩]
        rfl

/-- Lookup `pyIdx` either succeeds or fails with `indexError`. -/
theorem pyIdx_ok_or_indexError {α : Type} (xs : List α) (k : ℤ) :
    (∃ v, pyIdx xs k = .ok v) ∨ pyIdx xs k = .error .indexError := by
  unfold pyIdx
  by_cases h : 0 ≤ k ∧ k < (xs.length : ℤ)
  · rw [dif_pos h]; exact Or.inl ⟨_, rfl⟩
  · rw [dif_neg h]
    by_cases h2 : k < 0 ∧ 0 ≤ k + (xs.length : ℤ)
    · rw [dif_pos h2]; exact Or.inl ⟨_, rfl⟩
    · rw [dif_neg h2]; exact Or.inr rfl

/-- Lookup `pyIdx` at a natural index whose entry is known. -/
theorem pyIdx_of_getElem? {α : Type} (xs : List α) (i : ℕ) (v : α)
    (hv : xs[i]? = some v) : pyIdx xs (i : ℤ) = .ok v := by
  have hi : i < xs.length := by
    rw [List.getElem?_eq_some] at hv
    exact hv.1
  rw [pyIdx_nat_lt xs i hi]
  rw [List.getElem?_eq_getElem hi] at hv
  simpa using hv

/-- Evaluating `mapM` over the key list `[a, ..., a + l - 1]`, when every key resolves
according to the pointwise function `g`. -/
theorem mapM_intRange {β : Type} (f : ℤ → Except Err β) (g : ℕ → β) :
    ∀ (l a : ℕ), (∀ i : ℕ, i < l → f ((a + i : ℕ) : ℤ) = .ok (g (a + i))) →
      (intRange a l).mapM f = .ok ((List.range' a l).map g) := by
  intro l
  induction l with
  | zero => intro a _; rfl
  | succ l ih =>
      intro a h
      have h0 : f ((a : ℕ) : ℤ) = .ok (g a) := by
        have := h 0 (Nat.succ_pos l)
        simpa using this
      have htail : (intRange (a + 1) l).mapM f = .ok ((List.range' (a + 1) l).map g) := by
        refine ih (a + 1) (fun i hi => ?_)
        have := h (i + 1) (by omega)
        have harith : a + (i + 1) = a + 1 + i := by omega
        rwa [harith] at this
      have hcons : intRange a (l + 1) = ((a : ℕ) : ℤ) :: intRange (a + 1) l := by
        simp [intRange, List.range']
      rw [hcons, List.mapM_cons, h0, htail]
      rfl

/-- Computation rules for the `Except` monad operations, used to evaluate
the embedded do-blocks. -/
theorem exceptBind_ok {ε α β : Type} (a : α) (f : α → Except ε β) :
    (Except.ok a : Except ε α) >>= f = f a := rfl

theorem exceptBind_error {ε α β : Type} (e : ε) (f : α → Except ε β) :
    (Except.error e : Except ε α) >>= f = .error e := rfl

theorem exceptFmap_ok {ε α β : Type} (a : α) (f : α → β) :
    (f <$> (Except.ok a : Except ε α)) = .ok (f a) := rfl

theorem exceptFmap_error {ε α β : Type} (e : ε) (f : α → β) :
    (f <$> (Except.error e : Except ε α)) = .error e := rfl

theorem exceptMap_ok {ε α β : Type} (a : α) (f : α → β) :
    (Except.ok a : Except ε α).map f = .ok (f a) := rfl

theorem exceptMap_error {ε α β : Type} (e : ε) (f : α → β) :
    (Except.error e : Except ε α).map f = .error e := rfl

/-! ### Append-List Backend lemmas -/

theorem listAdd_mismatch (s : ListKeyIndexer) (keys : List KeyPair)
    (weights : List ℚ) (h : keys.length ≠ weights.length) :
    s.add keys weights = (s, .error .lengthMismatch) := by
  simp [ListKeyIndexer.add, h]

theorem listAdd_ok (s : ListKeyIndexer) (keys : List KeyPair)
    (weights : List ℚ) (h : keys.length = weights.length) :
    s.add keys weights =
      ({ int2key := s.int2key ++ keys
         int2key_weight := s.int2key_weight ++ weights
         all_docs := s.all_docs ++ keys.map Prod.fst
         num_chunks := s.num_chunks + keys.length },
       .ok (s.int2key.length + keys.length)) := by
  simp [ListKeyIndexer.add, h]

theorem lwf_init : LWF ListKeyIndexer.init := by
  constructor <;> rfl

theorem lwf_addB {ls : ListKeyIndexer} (b : Batch) (h : LWF ls) :
    LWF (ls.addB b) := by
  unfold ListKeyIndexer.addB
  by_cases hv : b.1.length = b.2.length
  · rw [listAdd_ok ls b.1 b.2 hv]
    exact ⟨by simp [h.wlen_eq, hv], by simp [h.chunks_eq], by simp [h.docs_eq]⟩
  · rw [listAdd_mismatch ls b.1 b.2 hv]
    exact h

theorem lwf_applyListFrom (bs : List Batch) :
    ∀ ls : ListKeyIndexer, LWF ls → LWF (applyListFrom ls bs) := by
  induction bs with
  | nil => intro ls h; exact h
  | cons b bs ih =>
      intro ls h
      exact ih (ls.addB b) (lwf_addB b h)

theorem lwf_applyList (bs : List Batch) : LWF (applyList bs) :=
  lwf_applyListFrom bs ListKeyIndexer.init lwf_init

theorem flatKeys_cons (b : Batch) (bs : List Batch) :
    flatKeys (b :: bs) = b.1 ++ flatKeys bs := by
  simp [flatKeys]

theorem flatWeights_cons (b : Batch) (bs : List Batch) :
    flatWeights (b :: bs) = b.2 ++ flatWeights bs := by
  simp [flatWeights]

theorem totalLen_cons (b : Batch) (bs : List Batch) :
    totalLen (b :: bs) = b.1.length + totalLen bs := by
  simp [totalLen]

theorem flatKeys_length (bs : List Batch) : (flatKeys bs).length = totalLen bs := by
  induction bs with
  | nil => rfl
  | cons b bs ih => rw [flatKeys_cons, totalLen_cons, List.length_append, ih]

theorem flatWeights_length (bs : List Batch) (hv : ValidBatches bs) :
    (flatWeights bs).length = totalLen bs := by
  induction bs with
  | nil => rfl
  | cons b bs ih =>
      rw [flatWeights_cons, totalLen_cons, List.length_append,
        ih (fun x hx => hv x (List.mem_cons_of_mem b hx)),
        hv b (List.mem_cons_self b bs)]

/-- Content of the Append-List state after a sequence of well-formed
batches: both parallel lists are the flattened batches. -/
theorem applyListFrom_content (bs : List Batch) :
    ∀ ls : ListKeyIndexer, ValidBatches bs →
      (applyListFrom ls bs).int2key = ls.int2key ++ flatKeys bs ∧
      (applyListFrom ls bs).int2key_weight = ls.int2key_weight ++ flatWeights bs ∧
      (applyListFrom ls bs).num_chunks = ls.num_chunks + totalLen bs ∧
      (applyListFrom ls bs).all_docs = ls.all_docs ++ (flatKeys bs).map Prod.fst := by
  induction bs with
  | nil =>
      intro ls _
      refine ⟨?_, ?_, ?_, ?_⟩ <;> simp [applyListFrom, flatKeys, flatWeights, totalLen]
  | cons b bs ih =>
      intro ls hv
      have hb : b.1.length = b.2.length := hv b (List.mem_cons_self b bs)
      have hstep : applyListFrom ls (b :: bs) = applyListFrom (ls.addB b) bs := rfl
      have haddB : ls.addB b =
          { int2key := ls.int2key ++ b.1
            int2key_weight := ls.int2key_weight ++ b.2
            all_docs := ls.all_docs ++ b.1.map Prod.fst
            num_chunks := ls.num_chunks + b.1.length } := by
        unfold ListKeyIndexer.addB
        rw [listAdd_ok ls b.1 b.2 hb]
      obtain ⟨h1, h2, h3, h4⟩ := ih (ls.addB b) (fun x hx => hv x (List.mem_cons_of_mem b hx))
      rw [hstep]
      refine ⟨?_, ?_, ?_, ?_⟩
      · rw [h1, haddB, flatKeys_cons]; simp
      · rw [h2, haddB, flatWeights_cons]; simp
      · rw [h3, haddB, totalLen_cons]; simp; omega
      · rw [h4, haddB, flatKeys_cons]; simp

theorem applyList_content (bs : List Batch) (hv : ValidBatches bs) :
    (applyList bs).int2key = flatKeys bs ∧
    (applyList bs).int2key_weight = flatWeights bs ∧
    (applyList bs).num_chunks = totalLen bs ∧
    (applyList bs).all_docs = (flatKeys bs).map Prod.fst := by
  obtain ⟨h1, h2, h3, h4⟩ := applyListFrom_content bs ListKeyIndexer.init hv
  exact ⟨by simpa [applyList, ListKeyIndexer.init] using h1,
    by simpa [applyList, ListKeyIndexer.init] using h2,
    by simpa [applyList, ListKeyIndexer.init] using h3,
    by simpa [applyList, ListKeyIndexer.init] using h4⟩

/-- Append-List query over `[a, ..., a + l - 1]`, described pointwise. -/
theorem listQuery_range (ls : ListKeyIndexer) (a l : ℕ)
    (hw : ls.int2key_weight.length = ls.int2key.length)
    (hal : a + l ≤ ls.int2key.length) :
    ls.query (intRange a l) =
      .ok ((List.range' a l).map (fun i =>
        ((ls.int2key.getD i (0, 0)).1, (ls.int2key.getD i (0, 0)).2,
          ls.int2key_weight.getD i 0))) := by
  unfold ListKeyIndexer.query
  refine mapM_intRange _ _ l a (fun i hi => ?_)
  have hk : a + i < ls.int2key.length := by omega
  have hkw : a + i < ls.int2key_weight.length := by omega
  have e1 : pyIdx ls.int2key ((a + i : ℕ) : ℤ) = .ok (ls.int2key.getD (a + i) (0, 0)) :=
    pyIdx_of_getElem? ls.int2key (a + i) (ls.int2key.getD (a + i) (0, 0))
      (by rw [List.getElem?_eq_getElem hk, List.getD_eq_getElem ls.int2key (0, 0) hk])
  have e2 : pyIdx ls.int2key_weight ((a + i : ℕ) : ℤ) = .ok (ls.int2key_weight.getD (a + i) 0) :=
    pyIdx_of_getElem? ls.int2key_weight (a + i) (ls.int2key_weight.getD (a + i) 0)
      (by rw [List.getElem?_eq_getElem hkw, List.getD_eq_getElem ls.int2key_weight 0 hkw])
  simp only [e1, e2]
  rfl

/-! ### Growable Columnar Buffer Backend lemmas -/

theorem replicate_one_headD {α : Type} (xs : List α) (d : α) (h : xs.length = 1) :
    List.replicate 1 (xs.headD d) = xs := by
  cases xs with
  | nil => simp at h
  | cons x t =>
      cases t with
      | nil => rfl
      | cons y t2 => simp at h

theorem sliceLen_of_fit (s l r : ℕ) (h : s + l ≤ r) : sliceLen s l r = l := by
  unfold sliceLen
  omega

theorem writeKeyCols_eq (data : List Record) (a : ℕ) (keys : List KeyPair) :
    writeKeyCols data a keys.length keys =
      data.take a ++
        List.zipWith (fun (k : KeyPair) (row : Record) => (fl k.1, fl k.2, row.2.2))
          keys ((data.drop a).take keys.length) ++
        data.drop (a + keys.length) := by
  unfold writeKeyCols
  by_cases h1 : keys.length = 1
  · rw [if_pos h1, h1, replicate_one_headD keys (0, 0) h1]
  · rw [if_neg h1]

theorem zipWith_weight_over_keys :
    ∀ (keys : List KeyPair) (ws : List ℚ) (old : List Record),
      ws.length = keys.length → keys.length ≤ old.length →
      List.zipWith (fun (w : ℚ) (row : Record) => (row.1, row.2.1, w)) ws
        (List.zipWith (fun (k : KeyPair) (row : Record) => (fl k.1, fl k.2, row.2.2))
          keys old) =
      List.zipWith (fun (k : KeyPair) (w : ℚ) => (fl k.1, fl k.2, w)) keys ws := by
  intro keys
  induction keys with
  | nil =>
      intro ws old h1 _
      rw [List.length_nil, List.length_eq_zero] at h1
      rw [h1]
      rfl
  | cons k keys ih =>
      intro ws old h1 h2
      cases ws with
      | nil => simp at h1
      | cons w ws =>
          cases old with
          | nil => simp at h2
          | cons row old =>
              simp only [List.zipWith_cons_cons]
              rw [ih ws old (by simpa using h1) (by simpa using h2)]

/-- The two bulk assignments of `NumpyKeyIndexer.add` on a fitting batch:
rows `a : a + l` are replaced by the float64-rounded records and everything
else is untouched. -/
theorem write_write (data : List Record) (a : ℕ) (keys : List KeyPair) (ws : List ℚ)
    (hlen : ws.length = keys.length) (hfit : a + keys.length ≤ data.length) :
    writeWeightCol (writeKeyCols data a keys.length keys) a keys.length ws =
      data.take a ++
        List.zipWith (fun (k : KeyPair) (w : ℚ) => (fl k.1, fl k.2, w)) keys ws ++
        data.drop (a + keys.length) := by
  have hXlen : (data.take a).length = a := by
    rw [List.length_take]
    omega
  have holdlen : ((data.drop a).take keys.length).length = keys.length := by
    rw [List.length_take, List.length_drop]
    omega
  have hBlen :
      (List.zipWith (fun (k : KeyPair) (row : Record) => (fl k.1, fl k.2, row.2.2))
        keys ((data.drop a).take keys.length)).length = keys.length := by
    rw [List.length_zipWith, holdlen]
    omega
  rw [writeKeyCols_eq]
  unfold writeWeightCol
  have hsrc :
      (if ws.length = 1 then List.replicate keys.length (ws.headD 0) else ws) = ws := by
    by_cases h1 : ws.length = 1
    · rw [if_pos h1, ← hlen, h1, replicate_one_headD ws 0 h1]
    · rw [if_neg h1]
  rw [hsrc]
  set X := data.take a with hX
  set B := List.zipWith (fun (k : KeyPair) (row : Record) => (fl k.1, fl k.2, row.2.2))
    keys ((data.drop a).take keys.length) with hB
  set Z := data.drop (a + keys.length) with hZ
  have htake : (X ++ B ++ Z).take a = X := by
    rw [List.append_assoc, ← hXlen, List.take_left]
  have hdrop : (X ++ B ++ Z).drop a = B ++ Z := by
    rw [List.append_assoc, ← hXlen, List.drop_left]
  have hdropl : (X ++ B ++ Z).drop (a + keys.length) = Z := by
    have hXB : (X ++ B).length = a + keys.length := by
      rw [List.length_append, hXlen, hBlen]
    rw [← hXB, List.drop_left]
  rw [htake, hdrop, hdropl]
  have hmid : (B ++ Z).take keys.length = B := by
    rw [← hBlen, List.take_left]
  rw [hmid, hB]
  simp only
  rw [zipWith_weight_over_keys keys ws ((data.drop a).take keys.length) hlen
    (le_of_eq holdlen.symm)]

theorem grow_size (s : NumpyKeyIndexer) (l : ℕ) : (s.grow l).size = s.size := by
  unfold NumpyKeyIndexer.grow
  split <;> rfl

theorem grow_buffer_size (s : NumpyKeyIndexer) (l : ℕ) :
    (s.grow l).buffer_size = s.buffer_size := by
  unfold NumpyKeyIndexer.grow
  split <;> rfl

theorem grow_all_docs (s : NumpyKeyIndexer) (l : ℕ) :
    (s.grow l).all_docs = s.all_docs := by
  unfold NumpyKeyIndexer.grow
  split <;> rfl

theorem grow_num_chunks (s : NumpyKeyIndexer) (l : ℕ) :
    (s.grow l).num_chunks = s.num_chunks := by
  unfold NumpyKeyIndexer.grow
  split <;> rfl

theorem grow_max_ge (s : NumpyKeyIndexer) (l : ℕ) :
    s.max_size ≤ (s.grow l).max_size := by
  unfold NumpyKeyIndexer.grow
  split
  · simp
  · exact le_rfl

theorem grow_rows (s : NumpyKeyIndexer) (l : ℕ)
    (h : s.int2key_info.length = s.max_size) :
    (s.grow l).int2key_info.length = (s.grow l).max_size := by
  unfold NumpyKeyIndexer.grow
  split
  · simp [h]
  · exact h

theorem grow_fits (s : NumpyKeyIndexer) (l : ℕ) (h : s.size ≤ s.max_size) :
    s.size + l ≤ (s.grow l).max_size := by
  unfold NumpyKeyIndexer.grow
  split
  · have := le_max_left l s.buffer_size
    simp only
    omega
  · omega

theorem grow_getElem?_old (s : NumpyKeyIndexer) (l i : ℕ)
    (h : i < s.int2key_info.length) :
    (s.grow l).int2key_info[i]? = s.int2key_info[i]? := by
  unfold NumpyKeyIndexer.grow
  split
  · simp only
    rw [List.getElem?_append_left h]
  · rfl

theorem grow_getElem?_new (s : NumpyKeyIndexer) (l i : ℕ)
    (hge : s.int2key_info.length ≤ i)
    (hlt : i < (s.grow l).int2key_info.length) :
    (s.grow l).int2key_info[i]? = some (0, 0, 0) := by
  unfold NumpyKeyIndexer.grow at hlt ⊢
  split at hlt
  · next hcond =>
      rw [if_pos hcond]
      simp only at hlt ⊢
      rw [List.getElem?_append_right hge, List.getElem?_replicate]
      rw [List.length_append, List.length_replicate] at hlt
      rw [if_pos (by omega)]
  · next hcond =>
      rw [if_neg hcond]
      omega

/-- Full characterization of a fitting, well-formed `NumpyKeyIndexer.add`. -/
theorem numpyAdd_ok (s : NumpyKeyIndexer) (keys : List KeyPair) (ws : List ℚ)
    (hlen : ws.length = keys.length) (hpos : 0 < keys.length)
    (hrows : s.int2key_info.length = s.max_size) (hsz : s.size ≤ s.max_size) :
    s.add keys ws =
      ({ int2key_info :=
           (s.grow keys.length).int2key_info.take s.size ++
             List.zipWith (fun (k : KeyPair) (w : ℚ) => (fl k.1, fl k.2, w)) keys ws ++
             (s.grow keys.length).int2key_info.drop (s.size + keys.length)
         buffer_size := s.buffer_size
         size := s.size + keys.length
         max_size := (s.grow keys.length).max_size
         all_docs := s.all_docs ++ keys.map Prod.fst
         num_chunks := s.num_chunks + keys.length }, .ok (s.size + keys.length)) := by
  have hr1 : (s.grow keys.length).int2key_info.length = (s.grow keys.length).max_size :=
    grow_rows s keys.length hrows
  have hfitmax : s.size + keys.length ≤ (s.grow keys.length).max_size :=
    grow_fits s keys.length hsz
  have hfit : s.size + keys.length ≤ (s.grow keys.length).int2key_info.length := by
    omega
  have hslice :
      sliceLen (s.grow keys.length).size keys.length
        (s.grow keys.length).int2key_info.length = keys.length := by
    rw [grow_size]
    exact sliceLen_of_fit s.size keys.length _ hfit
  simp only [NumpyKeyIndexer.add, hslice]
  rw [if_pos ⟨hpos, Or.inl trivial⟩, if_pos (Or.inl hlen)]
  simp only [grow_size, grow_buffer_size, grow_all_docs, grow_num_chunks]
  rw [write_write (s.grow keys.length).int2key_info s.size keys ws hlen hfit]

/-- Reading an element of the spliced list produced by a slice assignment:
inside the block it is the new value, outside it is the original one. -/
theorem splice_getElem? {α : Type} (D : List α) (a : ℕ) (B : List α) (i : ℕ)
    (hfit : a + B.length ≤ D.length) :
    (D.take a ++ B ++ D.drop (a + B.length))[i]? =
      if i < a then D[i]?
      else if i < a + B.length then B[i - a]?
      else D[i]? := by
  have hXlen : (D.take a).length = a := by
    rw [List.length_take]
    omega
  rw [List.append_assoc]
  by_cases h1 : i < a
  · rw [if_pos h1, List.getElem?_append_left (by omega), List.getElem?_take, if_pos h1]
  · rw [if_neg h1, List.getElem?_append_right (by omega), hXlen]
    by_cases h2 : i < a + B.length
    · rw [if_pos h2, List.getElem?_append_left (by omega)]
    · rw [if_neg h2, List.getElem?_append_right (by omega), List.getElem?_drop]
      congr 1
      omega

theorem nrel_init : NRel ListKeyIndexer.init (NumpyKeyIndexer.init 10000) := by
  refine ⟨rfl, List.length_replicate 10000 _, Nat.zero_le _, rfl, rfl, rfl, rfl, ?_, ?_⟩
  · intro i hi
    exact absurd hi (Nat.not_lt_zero i)
  · intro i _ hlt
    have h10 : i < 10000 := by
      have h2 := hlt
      rw [show (NumpyKeyIndexer.init 10000).int2key_info =
          List.replicate 10000 ((0 : ℤ), (0 : ℤ), (0 : ℚ)) from rfl,
        List.length_replicate] at h2
      exact h2
    show (List.replicate 10000 ((0 : ℤ), (0 : ℤ), (0 : ℚ)))[i]? = some (0, 0, 0)
    rw [List.getElem?_replicate, if_pos h10]

theorem nrel_grow {ls : ListKeyIndexer} {ns : NumpyKeyIndexer} (h : NRel ls ns)
    (l : ℕ) : NRel ls (ns.grow l) := by
  refine ⟨?_, grow_rows ns l h.rows_eq, ?_, ?_, h.wlen_eq, ?_, ?_, ?_, ?_⟩
  · rw [grow_buffer_size]; exact h.buf_eq
  · rw [grow_size]; exact le_trans h.size_le (grow_max_ge ns l)
  · rw [grow_size]; exact h.size_eq
  · rw [grow_all_docs]; exact h.docs_eq
  · rw [grow_num_chunks]; exact h.chunks_eq
  · intro i hi
    rw [grow_size] at hi
    have hle := h.size_le
    have hre := h.rows_eq
    rw [grow_getElem?_old ns l i (by omega)]
    exact h.stored i hi
  · intro i hge hlt
    rw [grow_size] at hge
    by_cases hold : i < ns.int2key_info.length
    · rw [grow_getElem?_old ns l i hold]
      exact h.zeros i hge hold
    · exact grow_getElem?_new ns l i (by omega) hlt

/-- The simulation invariant is preserved by one well-formed `add` batch. -/
theorem nrel_addB {ls : ListKeyIndexer} {ns : NumpyKeyIndexer} (b : Batch)
    (hv : b.1.length = b.2.length) (h : NRel ls ns) :
    NRel (ls.addB b) (ns.addB b) := by
  by_cases hpos : 0 < b.1.length
  · -- non-empty batch: both adds succeed
    have hG := nrel_grow h b.1.length
    have hfitmax : ns.size + b.1.length ≤ (ns.grow b.1.length).max_size :=
      grow_fits ns b.1.length h.size_le
    have hfit : ns.size + b.1.length ≤ (ns.grow b.1.length).int2key_info.length := by
      rw [hG.rows_eq]; omega
    have hBlen :
        (List.zipWith (fun (k : KeyPair) (w : ℚ) => (fl k.1, fl k.2, w)) b.1 b.2).length =
          b.1.length := by
      rw [List.length_zipWith]; omega
    have hladd : ls.addB b =
        { int2key := ls.int2key ++ b.1
          int2key_weight := ls.int2key_weight ++ b.2
          all_docs := ls.all_docs ++ b.1.map Prod.fst
          num_chunks := ls.num_chunks + b.1.length } := by
      unfold ListKeyIndexer.addB
      rw [listAdd_ok ls b.1 b.2 hv]
    have hnadd : ns.addB b =
        { int2key_info :=
            (ns.grow b.1.length).int2key_info.take ns.size ++
              List.zipWith (fun (k : KeyPair) (w : ℚ) => (fl k.1, fl k.2, w)) b.1 b.2 ++
              (ns.grow b.1.length).int2key_info.drop (ns.size + b.1.length)
          buffer_size := ns.buffer_size
          size := ns.size + b.1.length
          max_size := (ns.grow b.1.length).max_size
          all_docs := ns.all_docs ++ b.1.map Prod.fst
          num_chunks := ns.num_chunks + b.1.length } := by
      unfold NumpyKeyIndexer.addB
      rw [numpyAdd_ok ns b.1 b.2 hv.symm hpos h.rows_eq h.size_le]
    have hsizeG : (ns.grow b.1.length).size = ns.size := grow_size ns b.1.length
    have hread : ∀ i : ℕ,
        ((ns.grow b.1.length).int2key_info.take ns.size ++
          List.zipWith (fun (k : KeyPair) (w : ℚ) => (fl k.1, fl k.2, w)) b.1 b.2 ++
          (ns.grow b.1.length).int2key_info.drop (ns.size + b.1.length))[i]? =
        if i < ns.size then (ns.grow b.1.length).int2key_info[i]?
        else if i < ns.size + b.1.length then
          (List.zipWith (fun (k : KeyPair) (w : ℚ) => (fl k.1, fl k.2, w)) b.1 b.2)[i - ns.size]?
        else (ns.grow b.1.length).int2key_info[i]? := by
      intro i
      have := splice_getElem? (ns.grow b.1.length).int2key_info ns.size
        (List.zipWith (fun (k : KeyPair) (w : ℚ) => (fl k.1, fl k.2, w)) b.1 b.2) i
        (by rw [hBlen]; exact hfit)
      rwa [hBlen] at this
    rw [hladd, hnadd]
    refine ⟨h.buf_eq, ?_, ?_, ?_, ?_, ?_, ?_, ?_, ?_⟩
    · -- rows_eq
      simp only [List.length_append, List.length_take, List.length_drop, hBlen]
      rw [hG.rows_eq]
      omega
    · -- size_le
      simpa using hfitmax
    · -- size_eq
      simp only [List.length_append]
      rw [h.size_eq]
    · -- wlen_eq
      simp only [List.length_append, h.wlen_eq, hv]
    · -- docs_eq
      simp only [h.docs_eq]
    · -- chunks_eq
      simp only [h.chunks_eq]
    · -- stored
      intro i hi
      have hsle := h.size_le
      have hre := h.rows_eq
      simp only at hi ⊢
      rw [hread i]
      by_cases h1 : i < ns.size
      · rw [if_pos h1]
        rw [grow_getElem?_old ns b.1.length i (by omega)]
        have hilk : i < ls.int2key.length := by rw [← h.size_eq]; omega
        have hilw : i < ls.int2key_weight.length := by rw [h.wlen_eq]; omega
        rw [List.getElem?_append_left hilk, List.getElem?_append_left hilw]
        exact h.stored i h1
      · rw [if_neg h1, if_pos (by omega)]
        have hge : ls.int2key.length ≤ i := by rw [← h.size_eq]; omega
        have hgew : ls.int2key_weight.length ≤ i := by rw [h.wlen_eq, ← h.size_eq]; omega
        rw [List.getElem?_append_right hge, List.getElem?_append_right hgew]
        have hib : i - ns.size < b.1.length := by omega
        have hibw : i - ns.size < b.2.length := by omega
        rw [List.getElem?_zipWith]
        rw [h.size_eq] at hib hibw ⊢
        rw [h.wlen_eq]
        rw [List.getElem?_eq_getElem (by omega : i - ls.int2key.length < b.1.length),
          List.getElem?_eq_getElem (by omega : i - ls.int2key.length < b.2.length)]
        rfl
    · -- zeros
      intro i hge hlt
      simp only at hge hlt ⊢
      rw [hread i, if_neg (by omega), if_neg (by omega)]
      simp only [List.length_append, List.length_take, List.length_drop, hBlen] at hlt
      refine hG.zeros i ?_ ?_
      · rw [hsizeG]; omega
      · omega
  · -- empty batch: the Append-List add appends nothing and the Growable
    -- Columnar add raises a broadcast error without mutating anything
    have hknil : b.1 = [] := by
      cases hb : b.1 with
      | nil => rfl
      | cons x t => rw [hb] at hpos; simp at hpos
    have hwnil : b.2 = [] := by
      have := hv
      rw [hknil] at this
      exact List.length_eq_zero.mp this.symm
    have hladd : ls.addB b = ls := by
      unfold ListKeyIndexer.addB
      rw [hknil, hwnil, listAdd_ok ls [] [] rfl]
      simp
    have hgrow : ns.grow 0 = ns := by
      have hsle := h.size_le
      unfold NumpyKeyIndexer.grow
      rw [if_neg (by omega)]
    have hnadd : ns.addB b = ns := by
      unfold NumpyKeyIndexer.addB NumpyKeyIndexer.add
      simp only [hknil, List.length_nil, hgrow]
      rw [if_neg (by simp)]
    rw [hladd, hnadd]
    exact h

theorem nrel_applyFrom (bs : List Batch) :
    ∀ (ls : ListKeyIndexer) (ns : NumpyKeyIndexer), ValidBatches bs → NRel ls ns →
      NRel (applyListFrom ls bs) (applyNumpyFrom ns bs) := by
  induction bs with
  | nil => intro ls ns _ h; exact h
  | cons b bs ih =>
      intro ls ns hv h
      exact ih (ls.addB b) (ns.addB b)
        (fun x hx => hv x (List.mem_cons_of_mem b hx))
        (nrel_addB b (hv b (List.mem_cons_self b bs)) h)

theorem nrel_apply (bs : List Batch) (hv : ValidBatches bs) :
    NRel (applyList bs) (applyNumpy bs) :=
  nrel_applyFrom bs ListKeyIndexer.init (NumpyKeyIndexer.init 10000) hv nrel_init

/-- Growable Columnar query over the keys `[a, ..., a + l - 1]` under the
simulation invariant: each gathered row decodes to the float64-rounded
stored record. -/
theorem nrel_query_range {ls : ListKeyIndexer} {ns : NumpyKeyIndexer}
    (h : NRel ls ns) (a l : ℕ) (hal : a + l ≤ ns.size) :
    ns.query (intRange a l) =
      .ok ((List.range' a l).map (fun i =>
        (fl (ls.int2key.getD i (0, 0)).1, fl (ls.int2key.getD i (0, 0)).2,
          ls.int2key_weight.getD i 0))) := by
  have hsle := h.size_le
  have hre := h.rows_eq
  have hks : ∀ i : ℕ, i < l →
      ns.int2key_info[(a + i)]? =
        some (fl (ls.int2key.getD (a + i) (0, 0)).1,
          fl (ls.int2key.getD (a + i) (0, 0)).2,
          ls.int2key_weight.getD (a + i) 0) := by
    intro i hi
    have hia : a + i < ns.size := by omega
    have hst := h.stored (a + i) hia
    have hlk : a + i < ls.int2key.length := by rw [← h.size_eq]; omega
    have hlw : a + i < ls.int2key_weight.length := by rw [h.wlen_eq, ← h.size_eq]; omega
    rw [List.getElem?_eq_getElem hlk, List.getElem?_eq_getElem hlw] at hst
    simp only [Option.some_bind, Option.map_some'] at hst
    rw [hst, List.getD_eq_getElem ls.int2key (0, 0) hlk,
      List.getD_eq_getElem ls.int2key_weight 0 hlw]
  have e1 : (intRange a l).mapM
      (fun k => (pyIdx ns.int2key_info k).map (fun row => (row.1, row.2.1))) =
      .ok ((List.range' a l).map (fun i =>
        (fl (ls.int2key.getD i (0, 0)).1, fl (ls.int2key.getD i (0, 0)).2))) := by
    refine mapM_intRange _ _ l a (fun i hi => ?_)
    rw [pyIdx_of_getElem? _ _ _ (hks i hi)]
    rfl
  have e2 : (intRange a l).mapM
      (fun k => (pyIdx ns.int2key_info k).map (fun row => row.2.2)) =
      .ok ((List.range' a l).map (fun i => ls.int2key_weight.getD i 0)) := by
    refine mapM_intRange _ _ l a (fun i hi => ?_)
    rw [pyIdx_of_getElem? _ _ _ (hks i hi)]
    rfl
  unfold NumpyKeyIndexer.query
  simp only [e1, e2]
  show Except.ok (List.zipWith _ _ _) = _
  rw [List.zipWith_map, List.zipWith_same]

/-! ### Lazily-Cached Columnar Backend lemmas -/

theorem listNumpyAddB (s : ListNumpyKeyIndexer) (b : Batch) :
    s.addB b =
      { base := s.base.addB b
        data_updated := true
        np_int2key := s.np_int2key
        np_int2key_weight := s.np_int2key_weight } := by
  unfold ListNumpyKeyIndexer.addB ListNumpyKeyIndexer.add ListKeyIndexer.addB
  rfl

/-- After a sequence of `add` calls the Lazily-Cached state is the inherited
Append-List state, the caches are untouched, and the dirty flag is set as
soon as the sequence is non-empty. -/
theorem applyListNumpyFrom_state (bs : List Batch) :
    ∀ s : ListNumpyKeyIndexer,
      (applyListNumpyFrom s bs).base = applyListFrom s.base bs ∧
      (applyListNumpyFrom s bs).np_int2key = s.np_int2key ∧
      (applyListNumpyFrom s bs).np_int2key_weight = s.np_int2key_weight ∧
      (applyListNumpyFrom s bs).data_updated = (s.data_updated || !bs.isEmpty) := by
  induction bs with
  | nil =>
      intro s
      refine ⟨rfl, rfl, rfl, ?_⟩
      simp [applyListNumpyFrom]
  | cons b bs ih =>
      intro s
      obtain ⟨h1, h2, h3, h4⟩ := ih (s.addB b)
      refine ⟨?_, ?_, ?_, ?_⟩
      · show (applyListNumpyFrom (s.addB b) bs).base = applyListFrom s.base (b :: bs)
        rw [h1, listNumpyAddB s b]
        rfl
      · show (applyListNumpyFrom (s.addB b) bs).np_int2key = s.np_int2key
        rw [h2, listNumpyAddB s b]
      · show (applyListNumpyFrom (s.addB b) bs).np_int2key_weight = s.np_int2key_weight
        rw [h3, listNumpyAddB s b]
      · show (applyListNumpyFrom (s.addB b) bs).data_updated =
          (s.data_updated || !(b :: bs).isEmpty)
        rw [h4, listNumpyAddB s b]
        simp

theorem applyListNumpy_state (bs : List Batch) :
    (applyListNumpy bs).base = applyList bs ∧
    (applyListNumpy bs).np_int2key = none ∧
    (applyListNumpy bs).np_int2key_weight = none := by
  obtain ⟨h1, h2, h3, _⟩ := applyListNumpyFrom_state bs ListNumpyKeyIndexer.init
  exact ⟨h1, h2, h3⟩

theorem gatherPairs_of_ne_nil (kbuf : List KeyPair) (keys : List ℤ)
    (h : kbuf ≠ []) : gatherPairs kbuf keys = keys.mapM (fun k => pyIdx kbuf k) := by
  cases kbuf with
  | nil => exact absurd rfl h
  | cons k0 kt => rfl

/-- The Lazily-Cached query on a state with no cache built yet: the caches
are rebuilt from the append-only lists and the gather reads them, provided
no entry overflows int64 and the key list is non-empty. -/
theorem listNumpyQuery_range (s : ListNumpyKeyIndexer) (a l : ℕ)
    (hcache : s.np_int2key = none)
    (hof : s.base.int2key.any (fun p => outOfInt64 p.1 || outOfInt64 p.2) = false)
    (hne : s.base.int2key ≠ [])
    (hw : s.base.int2key_weight.length = s.base.int2key.length)
    (hal : a + l ≤ s.base.int2key.length) :
    (s.query (intRange a l)).2 =
      .ok ((List.range' a l).map (fun i =>
        ((s.base.int2key.getD i (0, 0)).1, (s.base.int2key.getD i (0, 0)).2,
          s.base.int2key_weight.getD i 0))) := by
  have hcond : s.rebuildCond = .ok true := by
    unfold ListNumpyKeyIndexer.rebuildCond
    by_cases hd : s.data_updated
    · rw [if_pos hd]
    · rw [if_neg hd, hcache]
  have hbuild : s.buildNpBuffer =
      ({ s with
          np_int2key := some s.base.int2key
          np_int2key_weight := some s.base.int2key_weight }, none) := by
    unfold ListNumpyKeyIndexer.buildNpBuffer
    rw [hcond]
    simp only [hof, Bool.false_eq_true, if_false]
  have e1 : (intRange a l).mapM (fun k => pyIdx s.base.int2key k) =
      .ok ((List.range' a l).map (fun i => s.base.int2key.getD i (0, 0))) := by
    refine mapM_intRange _ _ l a (fun i hi => ?_)
    have hik : a + i < s.base.int2key.length := by omega
    exact pyIdx_of_getElem? _ _ _
      (by rw [List.getElem?_eq_getElem hik, List.getD_eq_getElem s.base.int2key (0, 0) hik])
  have e2 : (intRange a l).mapM (fun k => pyIdx s.base.int2key_weight k) =
      .ok ((List.range' a l).map (fun i => s.base.int2key_weight.getD i 0)) := by
    refine mapM_intRange _ _ l a (fun i hi => ?_)
    have hik : a + i < s.base.int2key_weight.length := by omega
    exact pyIdx_of_getElem? _ _ _
      (by rw [List.getElem?_eq_getElem hik, List.getD_eq_getElem s.base.int2key_weight 0 hik])
  unfold ListNumpyKeyIndexer.query
  rw [hbuild]
  simp only [gatherPairs_of_ne_nil s.base.int2key (intRange a l) hne, e1, e2]
  show Except.ok (List.zipWith _ _ _) = _
  rw [List.zipWith_map, List.zipWith_same]

/-! ### Hash-Map Backend lemmas -/

theorem dictSet_length (m : List (ℤ × (ℤ × ℚ))) (k : ℤ) (v : ℤ × ℚ) :
    m.length ≤ (dictSet m k v).length ∧ (dictSet m k v).length ≤ m.length + 1 := by
  unfold dictSet
  split
  · rw [List.length_map]
    omega
  · rw [List.length_append]
    simp

theorem dictFold_length (kws : List (KeyPair × ℚ)) :
    ∀ m : List (ℤ × (ℤ × ℚ)),
      (kws.foldl (fun m kw => dictSet m kw.1.1 (kw.1.2, kw.2)) m).length ≤
        m.length + kws.length := by
  induction kws with
  | nil => intro m; simp
  | cons kw kws ih =>
      intro m
      have h1 := (dictSet_length m kw.1.1 (kw.1.2, kw.2)).2
      have h2 := ih (dictSet m kw.1.1 (kw.1.2, kw.2))
      simp only [List.foldl_cons, List.length_cons]
      omega

theorem applyDictFrom_chunks (bs : List Batch) :
    ∀ s : DictKeyIndexer,
      (applyDictFrom s bs).num_chunks = s.num_chunks + totalLen bs ∧
      (applyDictFrom s bs).key_info.length ≤ s.key_info.length + totalLen bs := by
  induction bs with
  | nil =>
      intro s
      exact ⟨by simp [applyDictFrom, totalLen], by simp [applyDictFrom, totalLen]⟩
  | cons b bs ih =>
      intro s
      obtain ⟨h1, h2⟩ := ih (s.addB b)
      have hstep : applyDictFrom s (b :: bs) = applyDictFrom (s.addB b) bs := rfl
      have haddc : (s.addB b).num_chunks = s.num_chunks + b.1.length := rfl
      have haddk : (s.addB b).key_info.length ≤ s.key_info.length + b.1.length := by
        have hz := dictFold_length (b.1.zip b.2) s.key_info
        have hzl : (b.1.zip b.2).length ≤ b.1.length := by
          rw [List.length_zip]
          exact min_le_left _ _
        exact le_trans hz (by omega)
      constructor
      · rw [hstep, h1, haddc, totalLen_cons]
        omega
      · rw [hstep, totalLen_cons]
        exact le_trans h2 (by omega)

theorem dictQuery_error (s : DictKeyIndexer) (keys : List ℤ) (k : ℤ)
    (hk : k ∈ keys) (hfind : dictFind s.key_info k = none) :
    s.query keys = .error .keyNotFound := by
  unfold DictKeyIndexer.query
  refine mapM_error_of_mem _ _ keys (fun x _ => ?_) ⟨k, hk, ?_⟩
  · cases hx : dictFind s.key_info x with
    | none => left; simp [hx]
    | some ow =>
        right
        refine ⟨(x, ow.1, ow.2), ?_⟩
        simp [hx]
  · simp [hfind]

/-! ### Error characterization of the positional queries -/

theorem pyIdx_error_of_out {α : Type} (xs : List α) (k : ℤ)
    (hout : k < -(xs.length : ℤ) ∨ (xs.length : ℤ) ≤ k) :
    pyIdx xs k = .error .indexError := by
  rcases pyIdx_ok_or_indexError xs k with ⟨v, hv⟩ | hv
  · obtain ⟨e, he⟩ := (pyIdx_error_iff xs k).mpr hout
    rw [hv] at he
    cases he
  · exact hv

theorem listQuery_error (s : ListKeyIndexer) (keys : List ℤ) (k : ℤ)
    (hk : k ∈ keys)
    (hout : k < -(s.int2key.length : ℤ) ∨ (s.int2key.length : ℤ) ≤ k) :
    s.query keys = .error .indexError := by
  unfold ListKeyIndexer.query
  refine mapM_error_of_mem _ _ keys (fun x _ => ?_) ⟨k, hk, ?_⟩
  · rcases pyIdx_ok_or_indexError s.int2key x with ⟨v, hv⟩ | hv
    · rcases pyIdx_ok_or_indexError s.int2key_weight x with ⟨w, hw⟩ | hw
      · right
        refine ⟨(v.1, v.2, w), ?_⟩
        simp only [hv, hw, exceptBind_ok, exceptFmap_ok]
        rfl
      · left
        simp only [hv, hw, exceptBind_ok, exceptBind_error, exceptFmap_error]
    · left
      simp only [hv, exceptBind_error]
  · simp only [pyIdx_error_of_out s.int2key k hout, exceptBind_error]

theorem numpyQuery_error (ns : NumpyKeyIndexer) (keys : List ℤ) (k : ℤ)
    (hk : k ∈ keys)
    (hout : k < -(ns.int2key_info.length : ℤ) ∨ (ns.int2key_info.length : ℤ) ≤ k) :
    ns.query keys = .error .indexError := by
  unfold NumpyKeyIndexer.query
  have hgather : keys.mapM
      (fun k => (pyIdx ns.int2key_info k).map (fun row => (row.1, row.2.1))) =
      .error .indexError := by
    refine mapM_error_of_mem _ _ keys (fun x _ => ?_) ⟨k, hk, ?_⟩
    · rcases pyIdx_ok_or_indexError ns.int2key_info x with ⟨v, hv⟩ | hv
      · right
        refine ⟨(v.1, v.2.1), ?_⟩
        simp only [hv, exceptMap_ok]
      · left
        simp only [hv, exceptMap_error]
    · simp only [pyIdx_error_of_out ns.int2key_info k hout, exceptMap_error]
  simp only [hgather, exceptBind_error]

theorem mapM_singleton {β : Type} (f : ℤ → Except Err β) (k : ℤ) :
    [k].mapM f = (f k).map (fun b => [b]) := by
  rw [List.mapM_cons, List.mapM_nil]
  cases f k <;> rfl

theorem numpyQuery_singleton_zero {ls : ListKeyIndexer} {ns : NumpyKeyIndexer}
    (h : NRel ls ns) (k : ℕ) (hge : ns.size ≤ k) (hlt : k < ns.max_size) :
    ns.query [(k : ℤ)] = .ok [(0, 0, 0)] := by
  have hrow : ns.int2key_info[k]? = some (0, 0, 0) :=
    h.zeros k hge (by rw [h.rows_eq]; exact hlt)
  have e1 : pyIdx ns.int2key_info ((k : ℕ) : ℤ) = .ok ((0 : ℤ), (0 : ℤ), (0 : ℚ)) :=
    pyIdx_of_getElem? _ _ _ hrow
  have g1 : [((k : ℕ) : ℤ)].mapM
      (fun k => (pyIdx ns.int2key_info k).map (fun row => (row.1, row.2.1))) =
      .ok [((0 : ℤ), (0 : ℤ))] := by
    rw [mapM_singleton]
    simp only [e1, exceptMap_ok]
  have g2 : [((k : ℕ) : ℤ)].mapM
      (fun k => (pyIdx ns.int2key_info k).map (fun row => row.2.2)) =
      .ok [(0 : ℚ)] := by
    rw [mapM_singleton]
    simp only [e1, exceptMap_ok]
  unfold NumpyKeyIndexer.query
  simp only [g1, g2, exceptBind_ok, exceptFmap_ok]
  rfl

/-! ### Monotonicity of the Growable Columnar counters -/

theorem numpyAdd_chunks_mono (s : NumpyKeyIndexer) (keys : List KeyPair)
    (weights : List ℚ) : s.num_chunks ≤ ((s.add keys weights).1).num_chunks := by
  have hg := grow_num_chunks s keys.length
  simp only [NumpyKeyIndexer.add]
  split
  · split
    · simp only [hg]
      omega
    · simp only [hg]
      omega
  · simp only [hg]
    omega

theorem numpyAdd_capacity_mono (s : NumpyKeyIndexer) (keys : List KeyPair)
    (weights : List ℚ) : s.max_size ≤ ((s.add keys weights).1).max_size := by
  have hg := grow_max_ge s keys.length
  simp only [NumpyKeyIndexer.add]
  split
  · split
    · simpa using hg
    · simpa using hg
  · simpa using hg

theorem numpyAdd_size_chunks (s : NumpyKeyIndexer) (keys : List KeyPair)
    (weights : List ℚ) (h : s.size = s.num_chunks) :
    ((s.add keys weights).1).size = ((s.add keys weights).1).num_chunks := by
  have hg1 := grow_num_chunks s keys.length
  have hg2 := grow_size s keys.length
  simp only [NumpyKeyIndexer.add]
  split
  · split
    · simp only [hg1, hg2]
      omega
    · simp only [hg1, hg2]
      omega
  · simp only [hg1, hg2]
    omega

theorem applyNumpyFrom_chunks_mono (bs : List Batch) :
    ∀ s : NumpyKeyIndexer, s.num_chunks ≤ (applyNumpyFrom s bs).num_chunks := by
  induction bs with
  | nil => intro s; exact le_rfl
  | cons b bs ih =>
      intro s
      exact le_trans (numpyAdd_chunks_mono s b.1 b.2) (ih (s.addB b))

theorem applyNumpyFrom_capacity_mono (bs : List Batch) :
    ∀ s : NumpyKeyIndexer, s.max_size ≤ (applyNumpyFrom s bs).max_size := by
  induction bs with
  | nil => intro s; exact le_rfl
  | cons b bs ih =>
      intro s
      exact le_trans (numpyAdd_capacity_mono s b.1 b.2) (ih (s.addB b))

theorem applyNumpyFrom_size_chunks (bs : List Batch) :
    ∀ s : NumpyKeyIndexer, s.size = s.num_chunks →
      (applyNumpyFrom s bs).size = (applyNumpyFrom s bs).num_chunks := by
  induction bs with
  | nil => intro s h; exact h
  | cons b bs ih =>
      intro s h
      exact ih (s.addB b) (numpyAdd_size_chunks s b.1 b.2 h)

theorem applyNumpy_take_mono (bs : List Batch) (i j : ℕ) (hij : i ≤ j) :
    (applyNumpy (bs.take i)).num_chunks ≤ (applyNumpy (bs.take j)).num_chunks ∧
    (applyNumpy (bs.take i)).max_size ≤ (applyNumpy (bs.take j)).max_size := by
  have hdecomp : bs.take j = bs.take i ++ ((bs.take j).drop i) := by
    conv_lhs => rw [← List.take_append_drop i (bs.take j)]
    rw [List.take_take, min_eq_left hij]
  have happ : applyNumpy (bs.take j) =
      applyNumpyFrom (applyNumpy (bs.take i)) ((bs.take j).drop i) := by
    conv_lhs => rw [hdecomp]
    unfold applyNumpy applyNumpyFrom
    rw [List.foldl_append]
  rw [happ]
  exact ⟨applyNumpyFrom_chunks_mono _ _, applyNumpyFrom_capacity_mono _ _⟩

/-! ### Singleton query success characterization (positional keys) -/

theorem listQuery_singleton_ok_iff (ls : ListKeyIndexer)
    (hw : ls.int2key_weight.length = ls.int2key.length) (k : ℕ) :
    exceptIsOk (ls.query [(k : ℤ)]) = true ↔ k < ls.int2key.length := by
  unfold ListKeyIndexer.query
  by_cases h : k < ls.int2key.length
  · have e1 := pyIdx_nat_lt ls.int2key k h
    have e2 := pyIdx_nat_lt ls.int2key_weight k (by rw [hw]; exact h)
    simp only [List.mapM_cons, List.mapM_nil, e1, e2, exceptBind_ok]
    simp only [exceptIsOk, h, iff_true]
    rfl
  · have e1 := pyIdx_nat_ge ls.int2key k (by omega)
    simp only [List.mapM_cons, List.mapM_nil, e1, exceptBind_error]
    simp only [exceptIsOk, h, iff_false]
    intro hc
    cases hc

/-! ### Dirty-flag behaviour of the Lazily-Cached Backend -/

theorem listNumpyAdd_sets_dirty (s : ListNumpyKeyIndexer) (keys : List KeyPair)
    (weights : List ℚ) : ((s.add keys weights).1).data_updated = true := rfl

theorem buildNpBuffer_keeps_dirty (s : ListNumpyKeyIndexer) :
    ((s.buildNpBuffer).1).data_updated = s.data_updated := by
  unfold ListNumpyKeyIndexer.buildNpBuffer
  cases hrc : s.rebuildCond with
  | error e => rfl
  | ok b =>
      cases b with
      | false => rfl
      | true =>
          by_cases hany : (s.base.int2key.any fun p => outOfInt64 p.1 || outOfInt64 p.2) = true
          · show ((if (s.base.int2key.any fun p => outOfInt64 p.1 || outOfInt64 p.2) = true
                then (s, some Err.overflowError)
                else ({ s with
                    np_int2key := some s.base.int2key
                    np_int2key_weight := some s.base.int2key_weight }, none)).1).data_updated =
              s.data_updated
            rw [if_pos hany]
          · show ((if (s.base.int2key.any fun p => outOfInt64 p.1 || outOfInt64 p.2) = true
                then (s, some Err.overflowError)
                else ({ s with
                    np_int2key := some s.base.int2key
                    np_int2key_weight := some s.base.int2key_weight }, none)).1).data_updated =
              s.data_updated
            rw [if_neg hany]

theorem listNumpyQuery_keeps_dirty (s : ListNumpyKeyIndexer) (keys : List ℤ) :
    ((s.query keys).1).data_updated = s.data_updated := by
  unfold ListNumpyKeyIndexer.query
  have hb := buildNpBuffer_keeps_dirty s
  cases hbe : s.buildNpBuffer with
  | mk s1 o =>
      rw [hbe] at hb
      cases o with
      | some e => simpa using hb
      | none =>
          split
          · rename_i s2 e2 heq
            simp at heq
          · rename_i s2 heq
            injection heq with ha hb2
            subst ha
            split <;> exact hb

/-! ### Conversion of pointwise query descriptions to batch form -/

theorem range'_map_append {β : Type} (a l : ℕ) (P K : List KeyPair)
    (Q W : List ℚ) (G : KeyPair → ℚ → β)
    (hP : P.length = a) (hQ : Q.length = a) (hK : K.length = l) (hW : W.length = l) :
    (List.range' a l).map (fun i => G ((P ++ K).getD i (0, 0)) ((Q ++ W).getD i 0)) =
    List.zipWith G K W := by
  apply List.ext_getElem
  · simp [hK, hW]
  · intro i h1 h2
    have hil : i < l := by simpa [hK, hW] using h2
    rw [List.getElem_map, List.getElem_range']
    have hgk : (P ++ K).getD (a + 1 * i) (0, 0) = K[i] := by
      have hge : P.length ≤ a + 1 * i := by omega
      have hlt : a + 1 * i < (P ++ K).length := by
        rw [List.length_append]
        omega
      rw [List.getD_eq_getElem _ _ hlt, List.getElem_append_right hge]
      congr 1
      omega
    have hgw : (Q ++ W).getD (a + 1 * i) 0 = W[i] := by
      have hge : Q.length ≤ a + 1 * i := by omega
      have hlt : a + 1 * i < (Q ++ W).length := by
        rw [List.length_append]
        omega
      rw [List.getD_eq_getElem _ _ hlt, List.getElem_append_right hge]
      congr 1
      omega
    rw [hgk, hgw, List.getElem_zipWith]

theorem zipWith_fl_id (K : List KeyPair) :
    ∀ W : List ℚ, (∀ p ∈ K, p.1.natAbs ≤ 2 ^ 53 ∧ p.2.natAbs ≤ 2 ^ 53) →
      List.zipWith (fun (k : KeyPair) (w : ℚ) => (fl k.1, fl k.2, w)) K W =
      List.zipWith (fun (k : KeyPair) (w : ℚ) => (k.1, k.2, w)) K W := by
  induction K with
  | nil => intro W _; rfl
  | cons k K ih =>
      intro W hb
      cases W with
      | nil => rfl
      | cons w W =>
          have hk := hb k (List.mem_cons_self k K)
          simp only [List.zipWith_cons_cons]
          rw [fl_eq_of_le hk.1, fl_eq_of_le hk.2,
            ih W (fun p hp => hb p (List.mem_cons_of_mem k hp))]

theorem flatKeys_bounded (m : ℕ) (bs : List Batch) (h : BoundedBatches m bs) :
    ∀ p ∈ flatKeys bs, p.1.natAbs ≤ m ∧ p.2.natAbs ≤ m := by
  intro p hp
  unfold flatKeys at hp
  obtain ⟨kl, hkl, hpkl⟩ := List.mem_flatten.mp hp
  obtain ⟨b, hb, rfl⟩ := List.mem_map.mp hkl
  exact h b hb p hpkl

theorem any_outOfInt64_false (K : List KeyPair)
    (h : ∀ p ∈ K, p.1.natAbs ≤ 2 ^ 63 - 1 ∧ p.2.natAbs ≤ 2 ^ 63 - 1) :
    K.any (fun p => outOfInt64 p.1 || outOfInt64 p.2) = false := by
  rw [List.any_eq_false]
  intro p hp
  have hb := h p hp
  simp only [outOfInt64, Bool.or_eq_true, decide_eq_true_eq, not_or]
  refine ⟨⟨?_, ?_⟩, ⟨?_, ?_⟩⟩ <;> omega

/-! ### Whole-history query descriptions of the three positional backends -/

/-- Append-List query over all assigned keys. -/
theorem applyList_query_all (bs : List Batch) (hv : ValidBatches bs) :
    (applyList bs).query (intRange 0 (totalLen bs)) =
      .ok (List.zipWith (fun (k : KeyPair) (w : ℚ) => (k.1, k.2, w))
        (flatKeys bs) (flatWeights bs)) := by
  obtain ⟨hc1, hc2, _, _⟩ := applyList_content bs hv
  have hw : (applyList bs).int2key_weight.length = (applyList bs).int2key.length :=
    (lwf_applyList bs).wlen_eq
  have hal : 0 + totalLen bs ≤ (applyList bs).int2key.length := by
    rw [hc1, flatKeys_length]
    omega
  have hq := listQuery_range (applyList bs) 0 (totalLen bs) hw hal
  rw [hq]
  refine congrArg Except.ok ?_
  simp only [hc1, hc2]
  have hconv := range'_map_append 0 (totalLen bs) [] (flatKeys bs) [] (flatWeights bs)
    (fun (k : KeyPair) (w : ℚ) => (k.1, k.2, w))
    rfl rfl (flatKeys_length bs) (flatWeights_length bs hv)
  simpa using hconv

/-- Growable Columnar query over all assigned keys: the stored records are
the float64-rounded batch records. -/
theorem applyNumpy_query_all (bs : List Batch) (hv : ValidBatches bs) :
    (applyNumpy bs).query (intRange 0 (totalLen bs)) =
      .ok (List.zipWith (fun (k : KeyPair) (w : ℚ) => (fl k.1, fl k.2, w))
        (flatKeys bs) (flatWeights bs)) := by
  have h := nrel_apply bs hv
  obtain ⟨hc1, hc2, _, _⟩ := applyList_content bs hv
  have hal : 0 + totalLen bs ≤ (applyNumpy bs).size := by
    rw [h.size_eq, hc1, flatKeys_length]
    omega
  have hq := nrel_query_range h 0 (totalLen bs) hal
  rw [hq]
  refine congrArg Except.ok ?_
  simp only [hc1, hc2]
  have hconv := range'_map_append 0 (totalLen bs) [] (flatKeys bs) [] (flatWeights bs)
    (fun (k : KeyPair) (w : ℚ) => (fl k.1, fl k.2, w))
    rfl rfl (flatKeys_length bs) (flatWeights_length bs hv)
  simpa using hconv

/-- Lazily-Cached Columnar query over all assigned keys: the caches are
rebuilt from the append-only lists into an exact int64 buffer, provided no
value overflows int64 and at least one record exists. -/
theorem applyListNumpy_query_all (bs : List Batch) (hv : ValidBatches bs)
    (hb : BoundedBatches (2 ^ 63 - 1) bs) (hpos : 0 < totalLen bs) :
    ((applyListNumpy bs).query (intRange 0 (totalLen bs))).2 =
      .ok (List.zipWith (fun (k : KeyPair) (w : ℚ) => (k.1, k.2, w))
        (flatKeys bs) (flatWeights bs)) := by
  obtain ⟨hbase, hck, hcw⟩ := applyListNumpy_state bs
  obtain ⟨hc1, hc2, _, _⟩ := applyList_content bs hv
  have hw : (applyListNumpy bs).base.int2key_weight.length =
      (applyListNumpy bs).base.int2key.length := by
    rw [hbase]
    exact (lwf_applyList bs).wlen_eq
  have hlen : (applyListNumpy bs).base.int2key.length = totalLen bs := by
    rw [hbase, hc1, flatKeys_length]
  have hof : (applyListNumpy bs).base.int2key.any
      (fun p => outOfInt64 p.1 || outOfInt64 p.2) = false := by
    rw [hbase, hc1]
    exact any_outOfInt64_false (flatKeys bs) (flatKeys_bounded _ bs hb)
  have hne : (applyListNumpy bs).base.int2key ≠ [] := by
    intro hnil
    rw [hnil] at hlen
    simp at hlen
    omega
  have hq := listNumpyQuery_range (applyListNumpy bs) 0 (totalLen bs) hck hof hne hw
    (by omega)
  rw [hq]
  refine congrArg Except.ok ?_
  simp only [hbase, hc1, hc2]
  have hconv := range'_map_append 0 (totalLen bs) [] (flatKeys bs) [] (flatWeights bs)
    (fun (k : KeyPair) (w : ℚ) => (k.1, k.2, w))
    rfl rfl (flatKeys_length bs) (flatWeights_length bs hv)
  simpa using hconv

/-! ## Claim theorems -/

/-- C1: the spec's growth-trigger scenario does not hold on the code.  A
`NumpyKeyIndexer` constructed with initial capacity 2 hardcodes
`self._buffer_size = 10000` and `self._max_size = self._buffer_size`, so an
`add` of a batch of 3 rows does not trigger growth (3 ≤ 10000), the bulk
write of 3 rows into the 2-row array raises a broadcast error, and the
state afterwards has `capacity = 10000` and `size = 0` — not the specified
`capacity = 10002` and `size = 3`. -/
theorem C1_growth_trigger_scenario :
    (((NumpyKeyIndexer.init 2).add [(0, 0), (0, 1), (1, 0)] [5, 4, 9]).2 =
      .error .broadcastError) ∧
    ((NumpyKeyIndexer.init 2).add [(0, 0), (0, 1), (1, 0)] [5, 4, 9]).1.capacity = 10000 ∧
    ((NumpyKeyIndexer.init 2).add [(0, 0), (0, 1), (1, 0)] [5, 4, 9]).1.size = 0 := by
  decide

/-- C4: the claim fails on the Hash-Map Backend.  After adding the batch
`[(1, 10), (1, 20)]` (a duplicate key), `num_chunks_avg` returns
`_num_doc / len(_key_info) = 1`, while `chunk_count / document_count`
is `2 / 1 = 2`: the source divides the wrong pair of counters. -/
theorem C4_dict_avg_bug :
    (applyDict [([(1, 10), (1, 20)], [1, 1])]).num_chunks_avg = .ok 1 ∧
    ((applyDict [([(1, 10), (1, 20)], [1, 1])]).num_chunks : ℚ) /
      ((applyDict [([(1, 10), (1, 20)], [1, 1])]).num_doc : ℚ) = 2 ∧
    (1 : ℚ) ≠ 2 := by
  have hstate : applyDict [([(1, 10), (1, 20)], [1, 1])] =
      ⟨[(1, (20, 1))], 1, 2⟩ := by decide
  refine ⟨?_, ?_, by norm_num⟩
  · rw [hstate]
    show DictKeyIndexer.num_chunks_avg ⟨[(1, (20, 1))], 1, 2⟩ = .ok 1
    unfold DictKeyIndexer.num_chunks_avg
    norm_num
  · rw [hstate]
    norm_num

/-- C5: the dirty flag is set by every `add` (even before the inherited add
runs), but `_build_np_buffer` never clears it, so `query` leaves the flag
exactly as it found it; in particular after an `add` followed by a `query`
the flag is still set and the next `query` rebuilds the buffers
(`rebuildCond` still says rebuild) instead of finding the cache clean. -/
theorem C5_dirty_flag_never_cleared :
    (∀ (s : ListNumpyKeyIndexer) (keys : List KeyPair) (ws : List ℚ),
       ((s.add keys ws).1).data_updated = true) ∧
    (∀ (s : ListNumpyKeyIndexer) (keys : List ℤ),
       ((s.query keys).1).data_updated = s.data_updated) ∧
    ((((ListNumpyKeyIndexer.init.add [(1, 2)] [1]).1.query [0]).1).data_updated = true) ∧
    ((((ListNumpyKeyIndexer.init.add [(1, 2)] [1]).1.query [0]).1).rebuildCond =
      .ok true) := by
  exact ⟨fun s keys ws => rfl, fun s keys => listNumpyQuery_keeps_dirty s keys,
    by decide, by decide⟩

/-- C6 (counterexample): after adding a batch with a duplicate key,
`chunk_count` is 2 while the map holds a single entry, so `chunk_count`
does not equal the current map size. -/
theorem C6_counterexample :
    (applyDict [([(1, 10), (1, 20)], [1, 1])]).num_chunks = 2 ∧
    (applyDict [([(1, 10), (1, 20)], [1, 1])]).key_info.length = 1 ∧
    (2 : ℕ) ≠ 1 := by
  decide

/-- C6 (amended): for the Hash-Map Backend, after every sequence of `add`
calls `chunk_count` equals the total number of (key, record) pairs ever
passed to `add`; the current map size never exceeds it (it equals it only
when no batch duplicated an existing key). -/
theorem C6_amended_chunk_count (bs : List Batch) :
    (applyDict bs).num_chunks = totalLen bs ∧
    (applyDict bs).key_info.length ≤ (applyDict bs).num_chunks := by
  obtain ⟨h1, h2⟩ := applyDictFrom_chunks bs DictKeyIndexer.init
  have h1i : (applyDict bs).num_chunks = totalLen bs := by
    simpa [applyDict, DictKeyIndexer.init] using h1
  refine ⟨h1i, ?_⟩
  rw [h1i]
  simpa [applyDict, DictKeyIndexer.init] using h2

/-- C8: the checked Append-List `add` validates the batch lengths before
touching any state: on a mismatch it raises `LengthMismatchError` and
returns the state unchanged — stored records, weights, `chunk_count` and
document ids seen are all exactly as before. -/
theorem C8_length_mismatch (s : ListKeyIndexer) (keys : List KeyPair)
    (ws : List ℚ) (h : keys.length ≠ ws.length) :
    s.add keys ws = (s, .error .lengthMismatch) := by
  simp [ListKeyIndexer.add, h]

theorem C8_witness :
    ([(0, 0), (0, 1), (1, 0)] : List KeyPair).length ≠ ([5, 4] : List ℚ).length ∧
    ListKeyIndexer.init.add [(0, 0), (0, 1), (1, 0)] [5, 4] =
      (ListKeyIndexer.init, .error .lengthMismatch) :=
  ⟨by decide, C8_length_mismatch ListKeyIndexer.init _ _ (by decide)⟩

/-- C9: across any sequence of `add` calls on the Growable Columnar Buffer
Backend, `chunk_count` and `capacity` never decrease (monotone along every
prefix pair), after every sequence `size = chunk_count`, the Append-List
Backend keeps its record list in lock-step with `chunk_count`, and the
positional keys that resolve are exactly `0 .. chunk_count - 1`. -/
theorem C9_monotone_counters (bs : List Batch) :
    (∀ i j : ℕ, i ≤ j →
       (applyNumpy (bs.take i)).num_chunks ≤ (applyNumpy (bs.take j)).num_chunks ∧
       (applyNumpy (bs.take i)).capacity ≤ (applyNumpy (bs.take j)).capacity) ∧
    (applyNumpy bs).size = (applyNumpy bs).num_chunks ∧
    (applyList bs).int2key.length = (applyList bs).num_chunks ∧
    (∀ k : ℕ, exceptIsOk ((applyList bs).query [(k : ℤ)]) = true ↔
       k < (applyList bs).num_chunks) := by
  refine ⟨fun i j hij => applyNumpy_take_mono bs i j hij, ?_, ?_, ?_⟩
  · exact applyNumpyFrom_size_chunks bs _ rfl
  · exact (lwf_applyList bs).chunks_eq.symm
  · intro k
    have hl := lwf_applyList bs
    rw [hl.chunks_eq]
    exact listQuery_singleton_ok_iff _ hl.wlen_eq k

theorem C9_witness :
    (0 : ℕ) ≤ 1 ∧
    ((applyNumpy (([([(1, 2)], [3])] : List Batch).take 0)).num_chunks ≤
       (applyNumpy (([([(1, 2)], [3])] : List Batch).take 1)).num_chunks ∧
     (applyNumpy (([([(1, 2)], [3])] : List Batch).take 0)).capacity ≤
       (applyNumpy (([([(1, 2)], [3])] : List Batch).take 1)).capacity) :=
  ⟨by decide, (C9_monotone_counters [([(1, 2)], [3])]).1 0 1 (by decide)⟩

/-- C2 (counterexample): on the default-constructed Growable Columnar
Buffer Backend, adding `(2^53 + 1, 0)` from `size = 0` and querying key 0
returns the float64-rounded record `(2^53, 0, 1)`, not the added record. -/
theorem C2_counterexample :
    ((NumpyKeyIndexer.init 10000).addB ([(2 ^ 53 + 1, 0)], [1])).query (intRange 0 1) =
      .ok [((2 ^ 53 : ℤ), 0, 1)] ∧
    ((2 ^ 53 : ℤ), (0 : ℤ), (1 : ℚ)) ≠ ((2 ^ 53 + 1 : ℤ), 0, 1) := by
  constructor
  · have h := nrel_addB (([(2 ^ 53 + 1, 0)], [1]) : Batch) (by decide) nrel_init
    have hq := nrel_query_range h 0 1 (by rw [h.size_eq]; decide)
    rw [hq]
    decide
  · decide

/-- C2 (amended): for every state of the default-constructed Growable
Columnar Buffer Backend reached through well-formed `add` batches, and
every non-empty batch whose document ids and offsets all have magnitude at
most `2^53` (the float64 exact-integer range), `add` succeeds returning
the new total and `query([s, ..., s + len(B) - 1])` returns exactly B's
records with their weights, in insertion order.  (Batches with larger
values may come back altered, and the non-default constructions are broken
by the hardcoded buffer size, see C1.) -/
theorem C2_amended_roundtrip (bs : List Batch) (hv : ValidBatches bs)
    (keys : List KeyPair) (ws : List ℚ) (hlen : keys.length = ws.length)
    (hpos : 0 < keys.length)
    (hbound : ∀ p ∈ keys, p.1.natAbs ≤ 2 ^ 53 ∧ p.2.natAbs ≤ 2 ^ 53) :
    ((applyNumpy bs).add keys ws).2 = .ok ((applyNumpy bs).size + keys.length) ∧
    (((applyNumpy bs).add keys ws).1).query
        (intRange (applyNumpy bs).size keys.length) =
      .ok (List.zipWith (fun (k : KeyPair) (w : ℚ) => (k.1, k.2, w)) keys ws) := by
  have h := nrel_apply bs hv
  constructor
  · rw [numpyAdd_ok (applyNumpy bs) keys ws hlen.symm hpos h.rows_eq h.size_le]
  · have h2 := nrel_addB ((keys, ws) : Batch) hlen h
    have hsz : ((applyNumpy bs).addB (keys, ws)).size =
        (applyNumpy bs).size + keys.length := by
      show (((applyNumpy bs).add keys ws).1).size = _
      rw [numpyAdd_ok (applyNumpy bs) keys ws hlen.symm hpos h.rows_eq h.size_le]
    have hq := nrel_query_range h2 (applyNumpy bs).size keys.length (by rw [hsz])
    have haddB : (applyList bs).addB (keys, ws) =
        { int2key := (applyList bs).int2key ++ keys
          int2key_weight := (applyList bs).int2key_weight ++ ws
          all_docs := (applyList bs).all_docs ++ keys.map Prod.fst
          num_chunks := (applyList bs).num_chunks + keys.length } := by
      unfold ListKeyIndexer.addB
      rw [listAdd_ok _ _ _ hlen]
    simp only [haddB] at hq
    show ((applyNumpy bs).addB (keys, ws)).query _ = _
    rw [hq]
    refine congrArg Except.ok ?_
    rw [← zipWith_fl_id keys ws hbound]
    have hconv := range'_map_append (applyNumpy bs).size keys.length
      (applyList bs).int2key keys (applyList bs).int2key_weight ws
      (fun (k : KeyPair) (w : ℚ) => (fl k.1, fl k.2, w))
      h.size_eq.symm (by rw [h.wlen_eq, h.size_eq]) rfl hlen.symm
    simpa using hconv

theorem C2_witness :
    (0 < [((1 : ℤ), (2 : ℤ))].length) ∧
    (((applyNumpy []).add [(1, 2)] [3]).2 =
        .ok ((applyNumpy []).size + [((1 : ℤ), (2 : ℤ))].length)) ∧
    ((((applyNumpy []).add [(1, 2)] [3]).1).query
        (intRange (applyNumpy []).size [((1 : ℤ), (2 : ℤ))].length) =
      .ok (List.zipWith (fun (k : KeyPair) (w : ℚ) => (k.1, k.2, w)) [(1, 2)] [3])) := by
  have happ := C2_amended_roundtrip [] (fun b hb => absurd hb (List.not_mem_nil b))
    [(1, 2)] [3] rfl (by decide) (by decide)
  exact ⟨by decide, happ.1, happ.2⟩

/-- C3 (counterexample): the Growable Columnar Buffer Backend does not
fault on a key that was never assigned: with one record added (key 0 only),
querying key 2 — inside the preallocated capacity — silently returns the
zero-filled reserved row instead of raising. -/
theorem C3_counterexample :
    (((NumpyKeyIndexer.init 4).add [(7, 8)] [1]).2 = .ok 1) ∧
    (((NumpyKeyIndexer.init 4).add [(7, 8)] [1]).1.query [2]) = .ok [(0, 0, 0)] := by
  decide

/-- C3 (amended): the Hash-Map Backend faults with `KeyNotFoundError` on
any unassigned key; the Append-List Backend faults with an out-of-range
error exactly when a key is outside the container range `[-size, size)`;
the Growable Columnar Buffer Backend faults only when a key is outside the
allocated capacity `[-capacity, capacity)` — an unassigned key between
`size` and `capacity` is not faulted and yields the zero-filled reserved
row. -/
theorem C3_amended_unassigned_keys :
    (∀ (s : DictKeyIndexer) (keys : List ℤ) (k : ℤ), k ∈ keys →
       dictFind s.key_info k = none → s.query keys = .error .keyNotFound) ∧
    (∀ (s : ListKeyIndexer) (keys : List ℤ) (k : ℤ), k ∈ keys →
       (k < -(s.int2key.length : ℤ) ∨ (s.int2key.length : ℤ) ≤ k) →
       s.query keys = .error .indexError) ∧
    (∀ bs : List Batch, ValidBatches bs →
       (∀ (keys : List ℤ) (k : ℤ), k ∈ keys →
          (k < -((applyNumpy bs).capacity : ℤ) ∨ ((applyNumpy bs).capacity : ℤ) ≤ k) →
          (applyNumpy bs).query keys = .error .indexError) ∧
       (∀ k : ℕ, (applyNumpy bs).size ≤ k → k < (applyNumpy bs).capacity →
          (applyNumpy bs).query [(k : ℤ)] = .ok [(0, 0, 0)])) := by
  refine ⟨dictQuery_error, listQuery_error, fun bs hv => ?_⟩
  have h := nrel_apply bs hv
  constructor
  · intro keys k hk hout
    refine numpyQuery_error (applyNumpy bs) keys k hk ?_
    rw [h.rows_eq]
    exact hout
  · intro k hge hlt
    exact numpyQuery_singleton_zero h k hge hlt

theorem C3_witness :
    ((3 : ℤ) ∈ [(3 : ℤ)]) ∧
    (DictKeyIndexer.init.query [3] = .error .keyNotFound) ∧
    (ListKeyIndexer.init.query [0] = .error .indexError) ∧
    ((applyNumpy []).query [10000] = .error .indexError) ∧
    ((applyNumpy [([(7, 8)], [1])]).query [((5 : ℕ) : ℤ)] = .ok [(0, 0, 0)]) := by
  have h1 := C3_amended_unassigned_keys.1 DictKeyIndexer.init [3] 3 (by decide) rfl
  have h2 := C3_amended_unassigned_keys.2.1 ListKeyIndexer.init [0] 0 (by decide)
    (by decide)
  have h3 := (C3_amended_unassigned_keys.2.2 [] (fun b hb =>
    absurd hb (List.not_mem_nil b))).1 [10000] 10000 (by decide) (by decide)
  have hvb : ValidBatches [([((7 : ℤ), (8 : ℤ))], [(1 : ℚ)])] := by
    unfold ValidBatches
    decide
  have hsz : (applyNumpy [([(7, 8)], [1])]).size = 1 := by
    have hr := nrel_apply [([(7, 8)], [1])] hvb
    rw [hr.size_eq]
    decide
  have hcap : 10000 ≤ (applyNumpy [([(7, 8)], [1])]).capacity :=
    applyNumpyFrom_capacity_mono [([(7, 8)], [1])] (NumpyKeyIndexer.init 10000)
  have h4 := (C3_amended_unassigned_keys.2.2 [([(7, 8)], [1])] hvb).2 5
    (by omega) (by omega)
  exact ⟨by decide, h1, h2, h3, h4⟩

/-- C7 (counterexample): the same single-record `add` on the Append-List
and the default Growable Columnar Buffer Backends, queried over all
assigned keys, returns different triples: the float64 buffer rounds
`2^53 + 1` down to `2^53`. -/
theorem C7_counterexample :
    (applyList [([(2 ^ 53 + 1, 0)], [1])]).query (intRange 0 1) =
      .ok [((2 ^ 53 + 1 : ℤ), 0, 1)] ∧
    (applyNumpy [([(2 ^ 53 + 1, 0)], [1])]).query (intRange 0 1) =
      .ok [((2 ^ 53 : ℤ), 0, 1)] ∧
    ((2 ^ 53 : ℤ)) ≠ 2 ^ 53 + 1 := by
  refine ⟨by decide, ?_, by decide⟩
  have h := nrel_apply [([(2 ^ 53 + 1, 0)], [1])] (by unfold ValidBatches; decide)
  have hq := nrel_query_range h 0 1 (by rw [h.size_eq]; decide)
  rw [hq]
  decide

/-- C7 (amended): given the same sequence of well-formed `add` batches with
at least one record and all document ids and offsets of magnitude at most
`2^53`, the Append-List, Lazily-Cached Columnar and Growable Columnar
Buffer Backends return identical (document_id, offset, weight) triples for
`query` over all assigned keys, and their `document_count` and
`average_chunks_per_document` agree exactly.  (Values above `2^53` break
the equivalence: the Growable Columnar Buffer stores float64, the other two
exact values; and the Lazily-Cached backend cannot serve any query before
the first record exists.) -/
theorem C7_amended_equivalence (bs : List Batch) (hv : ValidBatches bs)
    (hb : BoundedBatches (2 ^ 53) bs) (hpos : 0 < totalLen bs) :
    (applyList bs).query (intRange 0 (totalLen bs)) =
      ((applyListNumpy bs).query (intRange 0 (totalLen bs))).2 ∧
    (applyList bs).query (intRange 0 (totalLen bs)) =
      (applyNumpy bs).query (intRange 0 (totalLen bs)) ∧
    (applyList bs).query (intRange 0 (totalLen bs)) =
      .ok (List.zipWith (fun (k : KeyPair) (w : ℚ) => (k.1, k.2, w))
        (flatKeys bs) (flatWeights bs)) ∧
    (applyList bs).num_doc = (applyListNumpy bs).num_doc ∧
    (applyList bs).num_doc = (applyNumpy bs).num_doc ∧
    (applyList bs).num_chunks_avg = (applyListNumpy bs).num_chunks_avg ∧
    (applyList bs).num_chunks_avg = (applyNumpy bs).num_chunks_avg := by
  have h := nrel_apply bs hv
  have hb63 : BoundedBatches (2 ^ 63 - 1) bs := by
    intro b hbm p hp
    have h2 := hb b hbm p hp
    exact ⟨by omega, by omega⟩
  have hl := applyList_query_all bs hv
  have hln := applyListNumpy_query_all bs hv hb63 hpos
  have hn : (applyNumpy bs).query (intRange 0 (totalLen bs)) =
      .ok (List.zipWith (fun (k : KeyPair) (w : ℚ) => (k.1, k.2, w))
        (flatKeys bs) (flatWeights bs)) := by
    rw [applyNumpy_query_all bs hv,
      zipWith_fl_id (flatKeys bs) (flatWeights bs) (flatKeys_bounded _ bs hb)]
  obtain ⟨hbase, _, _⟩ := applyListNumpy_state bs
  have hdocs_ln : (applyList bs).num_doc = (applyListNumpy bs).num_doc := by
    unfold ListNumpyKeyIndexer.num_doc
    rw [hbase]
  have hdocs_n : (applyList bs).num_doc = (applyNumpy bs).num_doc := by
    unfold ListKeyIndexer.num_doc NumpyKeyIndexer.num_doc
    rw [h.docs_eq]
  refine ⟨by rw [hl, hln], by rw [hl, hn], hl, hdocs_ln, hdocs_n, ?_, ?_⟩
  · unfold ListNumpyKeyIndexer.num_chunks_avg
    rw [hbase]
  · unfold ListKeyIndexer.num_chunks_avg NumpyKeyIndexer.num_chunks_avg
    rw [show (applyNumpy bs).num_doc = (applyList bs).num_doc from hdocs_n.symm,
      h.chunks_eq]

theorem C7_witness :
    (0 < totalLen [([((1 : ℤ), (2 : ℤ))], [(3 : ℚ)])]) ∧
    ((applyList [([(1, 2)], [3])]).query
        (intRange 0 (totalLen [([((1 : ℤ), (2 : ℤ))], [(3 : ℚ)])])) =
      (applyNumpy [([(1, 2)], [3])]).query
        (intRange 0 (totalLen [([((1 : ℤ), (2 : ℤ))], [(3 : ℚ)])]))) := by
  have happ := C7_amended_equivalence [([(1, 2)], [3])]
    (by unfold ValidBatches; decide)
    (by unfold BoundedBatches BatchBounded; decide) (by decide)
  exact ⟨by decide, happ.2.1⟩

/-- C10 (counterexample): the Lazily-Cached Columnar Backend does not store
its keys in a float64 buffer — `np.array(keys, int)` is an int64 array —
so the value `2^53 + 1`, which exceeds the float64 exact-integer range,
still round-trips exactly through add-then-query. -/
theorem C10_counterexample :
    (((applyListNumpy [([(2 ^ 53 + 1, 0)], [1])]).query (intRange 0 1)).2 =
      .ok [((2 ^ 53 + 1 : ℤ), 0, 1)]) ∧
    ((2 ^ 53 : ℕ) < (2 ^ 53 + 1 : ℤ).natAbs) := by
  constructor
  · decide
  · decide

/-- C10 (amended): the Growable Columnar Buffer Backend stores document id
and offset in a float64 buffer: the add-then-query round trip is exact for
magnitudes up to `2^53` and alters `2^53 + 1` to `2^53`.  The Lazily-Cached
Columnar Backend instead builds an int64 buffer on query: its round trip is
exact for all magnitudes below `2^63` (and `np.array(..., int)` raises an
overflow error beyond int64, rather than altering values). -/
theorem C10_numeric_roundtrip :
    (∀ bs : List Batch, ValidBatches bs → BoundedBatches (2 ^ 53) bs →
       (applyNumpy bs).query (intRange 0 (totalLen bs)) =
         .ok (List.zipWith (fun (k : KeyPair) (w : ℚ) => (k.1, k.2, w))
           (flatKeys bs) (flatWeights bs))) ∧
    ((applyNumpy [([(2 ^ 53 + 1, 0)], [1])]).query (intRange 0 1) =
      .ok [((2 ^ 53 : ℤ), 0, 1)]) ∧
    (∀ bs : List Batch, ValidBatches bs → BoundedBatches (2 ^ 63 - 1) bs →
       0 < totalLen bs →
       ((applyListNumpy bs).query (intRange 0 (totalLen bs))).2 =
         .ok (List.zipWith (fun (k : KeyPair) (w : ℚ) => (k.1, k.2, w))
           (flatKeys bs) (flatWeights bs))) := by
  refine ⟨?_, ?_, ?_⟩
  · intro bs hv hb
    rw [applyNumpy_query_all bs hv,
      zipWith_fl_id (flatKeys bs) (flatWeights bs) (flatKeys_bounded _ bs hb)]
  · have h := nrel_apply [([(2 ^ 53 + 1, 0)], [1])] (by unfold ValidBatches; decide)
    have hq := nrel_query_range h 0 1 (by rw [h.size_eq]; decide)
    rw [hq]
    decide
  · intro bs hv hb hpos
    exact applyListNumpy_query_all bs hv hb hpos

theorem C10_witness :
    ValidBatches [([((1 : ℤ), (2 : ℤ))], [(3 : ℚ)])] ∧
    ((applyNumpy [([(1, 2)], [3])]).query
        (intRange 0 (totalLen [([((1 : ℤ), (2 : ℤ))], [(3 : ℚ)])])) =
      .ok (List.zipWith (fun (k : KeyPair) (w : ℚ) => (k.1, k.2, w))
        (flatKeys [([(1, 2)], [3])]) (flatWeights [([(1, 2)], [3])]))) :=
  ⟨by unfold ValidBatches; decide,
    C10_numeric_roundtrip.1 [([(1, 2)], [3])] (by unfold ValidBatches; decide)
      (by unfold BoundedBatches BatchBounded; decide)⟩

end Gnes
